import Mathlib

/-!
Verification of the simulation compute core of a parallel molecular-dynamics
engine (cell-list binning, Verlet neighbor lists, Lennard-Jones pair kernel,
velocity-Verlet integration, Maxwell-Boltzmann initialization).

All definitions are shallow embeddings of the source code over exact rational
arithmetic; each doc comment names the source file (and lines) it is
translated from.  GPU buffers become functions or lists, the nondeterministic
atomic binning order is modelled as the sequential particle-index order (the
source guarantees no ordering, so this is one admissible execution), and
fallible operations return `Except`.
-/

namespace WebgpuMD

/-- A 3-vector of rationals (models a `vec3<f32>` in exact arithmetic). -/
structure Vec3 where
  x : ℚ
  y : ℚ
  z : ℚ
deriving DecidableEq, Repr

/-- Box geometry as the compute kernels receive it: origin, per-axis lengths
and per-axis periodicity flags (the packed `boxLx..periodicZ` fields of the
WGSL param structs). -/
structure Box where
  ox : ℚ
  oy : ℚ
  oz : ℚ
  Lx : ℚ
  Ly : ℚ
  Lz : ℚ
  perX : Bool
  perY : Bool
  perZ : Bool
deriving DecidableEq, Repr

/-- Per-axis minimum-image wrap used by the pair kernel and the neighbor
search: `minimumImage` in `src/shaders/pairLJCut.wgsl` lines 50-78 (the same
code appears in `src/shaders/cellList.wgsl` lines 168-196 and as
`minimumImageDisplacement` in the velocity-Verlet shader).  On a periodic
axis, a delta larger than half the box length has the box length subtracted
once; smaller than minus half the box length, added once. -/
def wrapDelta (periodic : Bool) (L d : ℚ) : ℚ :=
  if periodic then
    if d > L * (1/2) then d - L
    else if d < -(L * (1/2)) then d + L
    else d
  else d

/-- The 3-component minimum image of `minimumImage` in
`src/shaders/pairLJCut.wgsl` lines 50-78. -/
def minimumImage (b : Box) (dx dy dz : ℚ) : Vec3 :=
  ⟨wrapDelta b.perX b.Lx dx, wrapDelta b.perY b.Ly dy, wrapDelta b.perZ b.Lz dz⟩

/-- The true minimum-image representative of `d` modulo `L`: the element of
`[-L/2, L/2)` congruent to `d` (mod `L`).  This is the mathematical
minimum-image convention of the specification (§8, glossary), used to state
hypotheses; the code's approximation of it is `wrapDelta`. -/
def minImageQ (L d : ℚ) : ℚ := d - round (d / L) * L

theorem wrapDelta_congr (per : Bool) (L d : ℚ) :
    ∃ k : ℤ, wrapDelta per L d = d + k * L := by
  unfold wrapDelta
  by_cases hper : per = true
  · rw [if_pos hper]
    by_cases h1 : d > L * (1/2)
    · rw [if_pos h1]; exact ⟨-1, by push_cast; ring⟩
    · rw [if_neg h1]
      by_cases h2 : d < -(L * (1/2))
      · rw [if_pos h2]; exact ⟨1, by push_cast; ring⟩
      · rw [if_neg h2]; exact ⟨0, by push_cast; ring⟩
  · rw [if_neg hper]; exact ⟨0, by push_cast; ring⟩

theorem wrapDelta_nonperiodic (L d : ℚ) : wrapDelta false L d = d := rfl

theorem wrapDelta_mem (L d : ℚ) (hd : |d| ≤ 3 * L / 2) :
    |wrapDelta true L d| ≤ L / 2 := by
  rw [abs_le] at hd ⊢
  unfold wrapDelta
  rw [if_pos rfl]
  by_cases h1 : d > L * (1/2)
  · rw [if_pos h1]
    constructor <;> nlinarith [hd.1, hd.2]
  · rw [if_neg h1]
    by_cases h2 : d < -(L * (1/2))
    · rw [if_pos h2]
      constructor <;> nlinarith [hd.1, hd.2]
    · rw [if_neg h2]
      push_neg at h1 h2
      constructor <;> nlinarith

theorem minImageQ_congr (L d : ℚ) : ∃ k : ℤ, minImageQ L d = d + k * L :=
  ⟨-round (d / L), by unfold minImageQ; push_cast; ring⟩

theorem minImageQ_mem (L d : ℚ) (hL : 0 < L) : |minImageQ L d| ≤ L / 2 := by
  unfold minImageQ
  rw [abs_le]
  have h1 : (round (d / L) : ℚ) ≤ d / L + 1 / 2 := by
    have := abs_sub_round (d / L)
    rw [abs_le] at this
    linarith [this.1, this.2]
  have h2 : d / L - 1 / 2 ≤ (round (d / L) : ℚ) := by
    have := abs_sub_round (d / L)
    rw [abs_le] at this
    linarith [this.1, this.2]
  constructor
  · have := mul_le_mul_of_nonneg_right h1 (le_of_lt hL)
    have hdl : d / L * L = d := div_mul_cancel₀ d (ne_of_gt hL)
    nlinarith
  · have := mul_le_mul_of_nonneg_right h2 (le_of_lt hL)
    have hdl : d / L * L = d := div_mul_cancel₀ d (ne_of_gt hL)
    nlinarith

/-- Two representatives of the same residue class mod `L`, both of absolute
value at most `L/2`, have equal squares. -/
theorem sq_eq_of_congr_of_abs_le {L a b : ℚ} (hL : 0 < L)
    (ha : |a| ≤ L / 2) (hb : |b| ≤ L / 2) (h : ∃ k : ℤ, a - b = k * L) :
    a ^ 2 = b ^ 2 := by
  obtain ⟨k, hk⟩ := h
  rw [abs_le] at ha hb
  have hkbound : k = 0 ∨ k = 1 ∨ k = -1 := by
    have h1 : (k : ℚ) * L ≤ L := by nlinarith [ha.2, hb.1]
    have h2 : -L ≤ (k : ℚ) * L := by nlinarith [ha.1, hb.2]
    have hk1 : (k : ℚ) ≤ 1 := by nlinarith
    have hk2 : (-1 : ℚ) ≤ k := by nlinarith
    have : k ≤ 1 := by exact_mod_cast hk1
    have : -1 ≤ k := by exact_mod_cast hk2
    omega
  rcases hkbound with h0 | h1 | hm1
  · subst h0; simp at hk; nlinarith [hk]
  · subst h1
    simp at hk
    have haL : a = L / 2 := by nlinarith [ha.2, hb.1]
    have hbL : b = -(L / 2) := by nlinarith [ha.2, hb.1]
    rw [haL, hbL]; ring
  · subst hm1
    have hk' : a - b = -L := by rw [hk]; push_cast; ring
    have haL : a = -(L / 2) := by nlinarith [ha.1, hb.2]
    have hbL : b = L / 2 := by nlinarith [ha.1, hb.2]
    rw [haL, hbL]; ring

/-- On a periodic axis, for deltas within `3L/2` of zero the code's
single-wrap minimum image agrees in square with the true minimum image. -/
theorem wrapDelta_sq_eq_minImageQ (L d : ℚ) (hL : 0 < L) (hd : |d| ≤ 3 * L / 2) :
    wrapDelta true L d ^ 2 = minImageQ L d ^ 2 := by
  apply sq_eq_of_congr_of_abs_le hL (wrapDelta_mem L d hd) (minImageQ_mem L d hL)
  obtain ⟨k1, hk1⟩ := wrapDelta_congr true L d
  obtain ⟨k2, hk2⟩ := minImageQ_congr L d
  exact ⟨k1 - k2, by rw [hk1, hk2]; push_cast; ring⟩

/-- C3 counterexample: on a periodic axis of box length `L = 10`, the raw
delta `d = 20` is wrapped only once, to `10`, which does not lie in
`[-L/2, L/2] = [-5, 5]`.  (The congruence half of the claim does hold.) -/
theorem C3_counterexample :
    wrapDelta true 10 20 = 10 ∧
      ¬(-(10 : ℚ) / 2 ≤ wrapDelta true 10 20 ∧ wrapDelta true 10 20 ≤ 10 / 2) := by
  constructor
  · norm_num [wrapDelta]
  · norm_num [wrapDelta]

/-- C3 (amended): for every periodic axis with box length `L > 0` and every
raw delta `d`, the wrapped component is congruent to `d` modulo `L`; and
whenever `|d| ≤ 3L/2` (in particular whenever `d` is the difference of two
in-box coordinates) it also lies in `[-L/2, L/2]` and its square equals the
square of the true minimum image of `d`. -/
theorem C3_minimum_image (L d : ℚ) (hL : 0 < L) :
    (∃ k : ℤ, wrapDelta true L d = d + k * L) ∧
      (|d| ≤ 3 * L / 2 →
        -(L / 2) ≤ wrapDelta true L d ∧ wrapDelta true L d ≤ L / 2 ∧
          wrapDelta true L d ^ 2 = minImageQ L d ^ 2) := by
  refine ⟨wrapDelta_congr true L d, fun hd => ?_⟩
  have hmem := wrapDelta_mem L d hd
  rw [abs_le] at hmem
  exact ⟨hmem.1, hmem.2, wrapDelta_sq_eq_minImageQ L d hL hd⟩

/-- Witness for `C3_minimum_image` at `L = 10`, `d = 7`. -/
theorem C3_minimum_image_witness :
    (0 : ℚ) < 10 ∧
      ((∃ k : ℤ, wrapDelta true 10 7 = 7 + k * 10) ∧
        (|(7 : ℚ)| ≤ 3 * 10 / 2 →
          -(10 / 2 : ℚ) ≤ wrapDelta true 10 7 ∧ wrapDelta true 10 7 ≤ 10 / 2 ∧
            wrapDelta true 10 7 ^ 2 = minImageQ 10 7 ^ 2)) :=
  ⟨by norm_num, C3_minimum_image 10 7 (by norm_num)⟩

/-! ## Lennard-Jones pair style: coefficient matrix and force kernel -/

/-- Raw Lennard-Jones coefficients for a type pair as stored by
`PairLJCut.setCoeff` (`src/unnamed/part_010` lines 305-312): well depth
`epsilon`, size `sigma`, and the per-pair cutoff (defaulted to the global
cutoff when not given). -/
structure LJRaw where
  epsilon : ℚ
  sigma : ℚ
  cutoff : ℚ
deriving DecidableEq, Repr

/-- Derived coefficients as laid out in the GPU buffer, one record per type
pair (`LJCoeffs` struct in `src/shaders/pairLJCut.wgsl` lines 29-38; the two
padding floats are omitted, they are never read). -/
structure LJC where
  lj1 : ℚ
  lj2 : ℚ
  lj3 : ℚ
  lj4 : ℚ
  cutsq : ℚ
  offset : ℚ
deriving DecidableEq, Repr

/-- The symmetric key of `PairCoeffMatrix.key` (`src/unnamed/part_010` lines
133-136): the unordered pair as (smaller, larger). -/
def pcmKey (i j : ℕ) : ℕ × ℕ := if i ≤ j then (i, j) else (j, i)

/-- The coefficient map of `PairCoeffMatrix` (`src/unnamed/part_010` lines
122-169), modelled as an association list in JavaScript-`Map` insertion
order: `set` overwrites an existing key in place, otherwise appends. -/
def pcmSet (m : List ((ℕ × ℕ) × LJRaw)) (i j : ℕ) (v : LJRaw) :
    List ((ℕ × ℕ) × LJRaw) :=
  if (m.map Prod.fst).contains (pcmKey i j) then
    m.map fun e => if e.fst = pcmKey i j then (e.fst, v) else e
  else m ++ [(pcmKey i j, v)]

/-- `PairCoeffMatrix.get` (`src/unnamed/part_010` lines 148-150). -/
def pcmGet (m : List ((ℕ × ℕ) × LJRaw)) (i j : ℕ) : Option LJRaw :=
  (m.find? fun e => decide (e.fst = pcmKey i j)).map Prod.snd

/-- `PairLJCut.setCoeff` (`src/unnamed/part_010` lines 305-312): stores the
symmetrised raw coefficients with the per-pair cutoff defaulting to the
global one. -/
def setCoeff (m : List ((ℕ × ℕ) × LJRaw)) (ti tj : ℕ) (eps sig : ℚ)
    (rc : Option ℚ) (globalCutoff : ℚ) : List ((ℕ × ℕ) × LJRaw) :=
  pcmSet m ti tj ⟨eps, sig, rc.getD globalCutoff⟩

/-- The derived-coefficient computation of `PairLJCut.uploadCoeffs`
(`src/unnamed/part_010` lines 331-353). -/
def packLJ (c : LJRaw) : LJC :=
  let sig2 := c.sigma * c.sigma
  let sig6 := sig2 * sig2 * sig2
  let sig12 := sig6 * sig6
  let lj1 := 48 * c.epsilon * sig12
  let lj2 := 24 * c.epsilon * sig6
  let lj3 := 4 * c.epsilon * sig12
  let lj4 := 4 * c.epsilon * sig6
  let cutsq := c.cutoff * c.cutoff
  let ratio := c.sigma / c.cutoff
  let ratio6 := ratio ^ 6
  let off := 4 * c.epsilon * (ratio6 * ratio6 - ratio6)
  ⟨lj1, lj2, lj3, lj4, cutsq, off⟩

/-- One 8-float group write into the flat coefficient buffer.  JavaScript
typed-array writes out of bounds are silently ignored; the buffer holds
`numTypes * numTypes` groups and a group is in bounds exactly when its slot
index is below `numTypes * numTypes`. -/
def slotWrite (T : ℕ) (a : ℕ → LJC) (idx : ℕ) (v : LJC) : ℕ → LJC :=
  if idx < T * T then Function.update a idx v else a

/-- `PairCoeffMatrix.packForGPU` (`src/unnamed/part_010` lines 178-193)
specialised to the LJ packer of `uploadCoeffs`: every stored entry writes its
packed coefficients at both `i·T+j` and `j·T+i`; unset slots remain
coefficient-zero. -/
def packForGPU (T : ℕ) (m : List ((ℕ × ℕ) × LJRaw)) : ℕ → LJC :=
  m.foldl
    (fun arr e =>
      slotWrite T (slotWrite T arr (e.fst.1 * T + e.fst.2) (packLJ e.snd))
        (e.fst.2 * T + e.fst.1) (packLJ e.snd))
    fun _ => ⟨0, 0, 0, 0, 0, 0⟩

/-- Accumulator of the force kernel: the three force components and the
per-particle potential energy of `computeForces`. -/
structure ForceAcc where
  fx : ℚ
  fy : ℚ
  fz : ℚ
  evdwl : ℚ
deriving DecidableEq, Repr

/-- One neighbor iteration of `computeForces` in
`src/shaders/pairLJCut.wgsl` lines 122-163: minimum-image delta, squared
distance, coefficient lookup at `itype * numTypes + jtype`, and, inside the
cutoff, the LAMMPS-convention force (and optionally energy) accumulation. -/
def ljNeighborStep (b : Box) (T : ℕ) (coeffs : ℕ → LJC) (pos : ℕ → Vec3)
    (types : ℕ → ℕ) (computeEnergy : Bool) (i : ℕ) (acc : ForceAcc) (j : ℕ) :
    ForceAcc :=
  let vi := pos i
  let vj := pos j
  let delta := minimumImage b (vi.x - vj.x) (vi.y - vj.y) (vi.z - vj.z)
  let rsq := delta.x * delta.x + delta.y * delta.y + delta.z * delta.z
  let coeff := coeffs (types i * T + types j)
  if rsq < coeff.cutsq then
    let r2inv := 1 / rsq
    let r6inv := r2inv * r2inv * r2inv
    let forcelj := r6inv * (coeff.lj1 * r6inv - coeff.lj2)
    let fpair := forcelj * r2inv
    { fx := acc.fx + delta.x * fpair
      fy := acc.fy + delta.y * fpair
      fz := acc.fz + delta.z * fpair
      evdwl :=
        if computeEnergy then
          acc.evdwl + 1/2 * (r6inv * (coeff.lj3 * r6inv - coeff.lj4) - coeff.offset)
        else acc.evdwl }
  else acc

/-- `computeForces` for one atom (`src/shaders/pairLJCut.wgsl` lines
97-174): the accumulators start at the zero that `zeroForces` wrote, then
the neighbor loop runs over the atom's neighbor row. -/
def computeForcesAtom (b : Box) (T : ℕ) (coeffs : ℕ → LJC) (pos : ℕ → Vec3)
    (types : ℕ → ℕ) (computeEnergy : Bool) (i : ℕ) (row : List ℕ) : ForceAcc :=
  row.foldl (ljNeighborStep b T coeffs pos types computeEnergy i) ⟨0, 0, 0, 0⟩

/-- The per-neighbor contribution exactly as the specification phrases it
(claim C2): `r2inv = 1/rsq`, `r6inv = r2inv³`, `fpair = r6inv·(lj1·r6inv −
lj2)·r2inv`, force `delta·fpair`, energy `½·(r6inv·(lj3·r6inv − lj4) −
offset)`.  Stated from the spec's words, to be compared with
`ljNeighborStep`. -/
def specLJContribution (b : Box) (T : ℕ) (coeffs : ℕ → LJC) (pos : ℕ → Vec3)
    (types : ℕ → ℕ) (i j : ℕ) : ℚ × ℚ × ℚ × ℚ :=
  let delta := minimumImage b ((pos i).x - (pos j).x) ((pos i).y - (pos j).y)
    ((pos i).z - (pos j).z)
  let rsq := delta.x ^ 2 + delta.y ^ 2 + delta.z ^ 2
  let c := coeffs (types i * T + types j)
  if rsq < c.cutsq then
    let r2inv := 1 / rsq
    let r6inv := r2inv ^ 3
    let fpair := r6inv * (c.lj1 * r6inv - c.lj2) * r2inv
    (delta.x * fpair, delta.y * fpair, delta.z * fpair,
      1/2 * (r6inv * (c.lj3 * r6inv - c.lj4) - c.offset))
  else (0, 0, 0, 0)

theorem slot_inj {T x y a b : ℕ} (hy : y < T) (hb : b < T)
    (h : x * T + y = a * T + b) : x = a ∧ y = b := by
  have hT : 0 < T := by omega
  have e1 : ∀ u v : ℕ, v < T → (u * T + v) / T = u := by
    intro u v hv
    rw [Nat.mul_comm, Nat.mul_add_div hT, Nat.div_eq_of_lt hv, Nat.add_zero]
  have e2 : ∀ u v : ℕ, v < T → (u * T + v) % T = v := by
    intro u v hv
    rw [Nat.mul_comm, Nat.mul_add_mod, Nat.mod_eq_of_lt hv]
  constructor
  · rw [← e1 x y hy, ← e1 a b hb, h]
  · rw [← e2 x y hy, ← e2 a b hb, h]

theorem pcmKey_comm (i j : ℕ) : pcmKey i j = pcmKey j i := by
  unfold pcmKey
  rcases Nat.le_total i j with h | h
  · by_cases hji : j ≤ i
    · have : i = j := Nat.le_antisymm h hji
      subst this; simp
    · rw [if_pos h, if_neg hji]
  · by_cases hij : i ≤ j
    · have : i = j := Nat.le_antisymm hij h
      subst this; simp
    · rw [if_neg hij, if_pos h]

/-- A fold over entries whose keys all differ from `pcmKey x y` leaves the
slot `x·T+y` unchanged. -/
theorem packFold_untouched (T x y : ℕ) (hx : x < T) (hy : y < T)
    (m : List ((ℕ × ℕ) × LJRaw)) (A : ℕ → LJC)
    (hwt : ∀ e ∈ m, e.fst.1 ≤ e.fst.2 ∧ e.fst.2 < T)
    (hne : ∀ e ∈ m, e.fst ≠ pcmKey x y) :
    (m.foldl
      (fun arr e =>
        slotWrite T (slotWrite T arr (e.fst.1 * T + e.fst.2) (packLJ e.snd))
          (e.fst.2 * T + e.fst.1) (packLJ e.snd)) A) (x * T + y) = A (x * T + y) := by
  induction m generalizing A with
  | nil => rfl
  | cons e t ih =>
    obtain ⟨⟨ea, eb⟩, ev⟩ := e
    rw [List.foldl_cons]
    rw [ih _ (fun e' he' => hwt e' (List.mem_cons_of_mem _ he'))
      (fun e' he' => hne e' (List.mem_cons_of_mem _ he'))]
    obtain ⟨hle, hlt⟩ := hwt _ (List.mem_cons_self _ _)
    have hkey := hne _ (List.mem_cons_self _ _)
    simp only at hle hlt hkey ⊢
    have h1 : x * T + y ≠ ea * T + eb := by
      intro hcontr
      obtain ⟨hxx, hyy⟩ := slot_inj hy hlt hcontr
      apply hkey
      unfold pcmKey
      rw [hxx, hyy, if_pos hle]
    have h2 : x * T + y ≠ eb * T + ea := by
      intro hcontr
      obtain ⟨hxx, hyy⟩ := slot_inj hy (lt_of_le_of_lt hle hlt) hcontr
      apply hkey
      unfold pcmKey
      rw [hxx, hyy]
      by_cases hxy : eb ≤ ea
      · have heq : ea = eb := Nat.le_antisymm hle hxy
        rw [heq, if_pos (le_refl eb)]
      · rw [if_neg hxy]
    unfold slotWrite
    by_cases c2 : eb * T + ea < T * T
    · rw [if_pos c2, Function.update_noteq h2]
      by_cases c1 : ea * T + eb < T * T
      · rw [if_pos c1, Function.update_noteq h1]
      · rw [if_neg c1]
    · rw [if_neg c2]
      by_cases c1 : ea * T + eb < T * T
      · rw [if_pos c1, Function.update_noteq h1]
      · rw [if_neg c1]

theorem slot_lt {T x y : ℕ} (hx : x < T) (hy : y < T) : x * T + y < T * T :=
  calc x * T + y < x * T + T := by omega
  _ = (x + 1) * T := by ring
  _ ≤ T * T := Nat.mul_le_mul_right T hx

/-- After the double write of one entry `(pcmKey x y, v)`, slot `x·T+y`
holds `packLJ v`. -/
theorem slotWrite_pair (T x y : ℕ) (hx : x < T) (hy : y < T) (A : ℕ → LJC)
    (v : LJC) :
    slotWrite T (slotWrite T A ((pcmKey x y).1 * T + (pcmKey x y).2) v)
      ((pcmKey x y).2 * T + (pcmKey x y).1) v (x * T + y) = v := by
  unfold pcmKey slotWrite
  by_cases hxy : x ≤ y
  · rw [if_pos hxy]
    simp only
    rw [if_pos (slot_lt hy hx)]
    by_cases heq : y * T + x = x * T + y
    · rw [heq, Function.update_same]
    · rw [Function.update_noteq (fun hc => heq hc.symm), if_pos (slot_lt hx hy),
        Function.update_same]
  · rw [if_neg hxy]
    simp only
    rw [if_pos (slot_lt hx hy), Function.update_same]

/-- Folding the packer over entries that contain the unordered pair `{x, y}`
(with distinct, well-typed keys) puts that pair's packed coefficients into
slot `x·T+y`, for any initial buffer. -/
theorem packFold_lookup (T x y : ℕ) (hx : x < T) (hy : y < T)
    (m : List ((ℕ × ℕ) × LJRaw)) (v : LJRaw) (A : ℕ → LJC)
    (hnd : (m.map Prod.fst).Nodup)
    (hwt : ∀ e ∈ m, e.fst.1 ≤ e.fst.2 ∧ e.fst.2 < T)
    (hmem : (pcmKey x y, v) ∈ m) :
    (m.foldl
      (fun arr e =>
        slotWrite T (slotWrite T arr (e.fst.1 * T + e.fst.2) (packLJ e.snd))
          (e.fst.2 * T + e.fst.1) (packLJ e.snd)) A) (x * T + y) = packLJ v := by
  induction m generalizing A with
  | nil => cases hmem
  | cons e t ih =>
    rw [List.map_cons, List.nodup_cons] at hnd
    rw [List.foldl_cons]
    rcases List.mem_cons.mp hmem with heq | hmem'
    · have heq' : e = (pcmKey x y, v) := heq.symm
      subst heq'
      rw [packFold_untouched T x y hx hy t _
        (fun e' he' => hwt e' (List.mem_cons_of_mem _ he'))
        (fun e' he' hk => hnd.1 (by
          have hmm := List.mem_map_of_mem Prod.fst he'
          rw [hk] at hmm
          exact hmm))]
      exact slotWrite_pair T x y hx hy A (packLJ v)
    · exact ih _ hnd.2 (fun e' he' => hwt e' (List.mem_cons_of_mem _ he')) hmem'

/-- The packed buffer holds the entry's packed coefficients at slot `x·T+y`
whenever the matrix stores the (unordered) pair `{x, y}`. -/
theorem packForGPU_lookup (T x y : ℕ) (hx : x < T) (hy : y < T)
    (m : List ((ℕ × ℕ) × LJRaw)) (v : LJRaw)
    (hnd : (m.map Prod.fst).Nodup)
    (hwt : ∀ e ∈ m, e.fst.1 ≤ e.fst.2 ∧ e.fst.2 < T)
    (hmem : (pcmKey x y, v) ∈ m) :
    packForGPU T m (x * T + y) = packLJ v :=
  packFold_lookup T x y hx hy m v _ hnd hwt hmem

theorem ljNeighborStep_spec (b : Box) (T : ℕ) (coeffs : ℕ → LJC)
    (pos : ℕ → Vec3) (types : ℕ → ℕ) (i j : ℕ) (acc : ForceAcc) :
    ljNeighborStep b T coeffs pos types true i acc j =
      ⟨acc.fx + (specLJContribution b T coeffs pos types i j).1,
        acc.fy + (specLJContribution b T coeffs pos types i j).2.1,
        acc.fz + (specLJContribution b T coeffs pos types i j).2.2.1,
        acc.evdwl + (specLJContribution b T coeffs pos types i j).2.2.2⟩ := by
  obtain ⟨afx, afy, afz, ae⟩ := acc
  unfold ljNeighborStep specLJContribution
  simp only
  set D := minimumImage b ((pos i).x - (pos j).x) ((pos i).y - (pos j).y)
    ((pos i).z - (pos j).z) with hD
  have hr : D.x * D.x + D.y * D.y + D.z * D.z = D.x ^ 2 + D.y ^ 2 + D.z ^ 2 := by
    ring
  rw [hr]
  by_cases hcut : D.x ^ 2 + D.y ^ 2 + D.z ^ 2 <
      (coeffs (types i * T + types j)).cutsq
  · rw [if_pos hcut, if_pos hcut]
    simp only [if_true, ForceAcc.mk.injEq]
    refine ⟨by ring, by ring, by ring, by ring⟩
  · rw [if_neg hcut, if_neg hcut]
    simp only [if_true, ForceAcc.mk.injEq]
    refine ⟨by ring, by ring, by ring, by ring⟩

/-- The force kernel's fold is the sum of the per-neighbor contributions. -/
theorem computeForcesAtom_eq_sum (b : Box) (T : ℕ) (coeffs : ℕ → LJC)
    (pos : ℕ → Vec3) (types : ℕ → ℕ) (i : ℕ) (row : List ℕ) :
    computeForcesAtom b T coeffs pos types true i row =
      ⟨(row.map fun j => (specLJContribution b T coeffs pos types i j).1).sum,
        (row.map fun j => (specLJContribution b T coeffs pos types i j).2.1).sum,
        (row.map fun j => (specLJContribution b T coeffs pos types i j).2.2.1).sum,
        (row.map fun j => (specLJContribution b T coeffs pos types i j).2.2.2).sum⟩ := by
  unfold computeForcesAtom
  have key : ∀ (l : List ℕ) (acc : ForceAcc),
      l.foldl (ljNeighborStep b T coeffs pos types true i) acc =
        ⟨acc.fx + (l.map fun j => (specLJContribution b T coeffs pos types i j).1).sum,
          acc.fy + (l.map fun j => (specLJContribution b T coeffs pos types i j).2.1).sum,
          acc.fz + (l.map fun j => (specLJContribution b T coeffs pos types i j).2.2.1).sum,
          acc.evdwl + (l.map fun j => (specLJContribution b T coeffs pos types i j).2.2.2).sum⟩ := by
    intro l
    induction l with
    | nil =>
      intro acc
      simp
    | cons j t ih =>
      intro acc
      rw [List.foldl_cons, ih, ljNeighborStep_spec]
      simp only [List.map_cons, List.sum_cons, ForceAcc.mk.injEq]
      refine ⟨by ring, by ring, by ring, by ring⟩
  rw [key row ⟨0, 0, 0, 0⟩]
  simp

/-- Symmetry of the packed coefficient buffer for in-range types. -/
theorem packForGPU_symm (T a b : ℕ) (ha : a < T) (hb : b < T)
    (m : List ((ℕ × ℕ) × LJRaw))
    (hwt : ∀ e ∈ m, e.fst.1 ≤ e.fst.2 ∧ e.fst.2 < T) :
    packForGPU T m (a * T + b) = packForGPU T m (b * T + a) := by
  unfold packForGPU
  have key : ∀ (l : List ((ℕ × ℕ) × LJRaw)) (A : ℕ → LJC),
      (∀ e ∈ l, e.fst.1 ≤ e.fst.2 ∧ e.fst.2 < T) →
      A (a * T + b) = A (b * T + a) →
      (l.foldl
        (fun arr e =>
          slotWrite T (slotWrite T arr (e.fst.1 * T + e.fst.2) (packLJ e.snd))
            (e.fst.2 * T + e.fst.1) (packLJ e.snd)) A) (a * T + b) =
      (l.foldl
        (fun arr e =>
          slotWrite T (slotWrite T arr (e.fst.1 * T + e.fst.2) (packLJ e.snd))
            (e.fst.2 * T + e.fst.1) (packLJ e.snd)) A) (b * T + a) := by
    intro l
    induction l with
    | nil => intro A _ hA; exact hA
    | cons e t ih =>
      intro A hwt' hA
      obtain ⟨⟨ea, eb⟩, ev⟩ := e
      obtain ⟨hle, hlt⟩ := hwt' _ (List.mem_cons_self _ _)
      simp only at hle hlt
      rw [List.foldl_cons]
      apply ih _ (fun e' he' => hwt' e' (List.mem_cons_of_mem _ he'))
      simp only
      unfold slotWrite
      rw [if_pos (slot_lt (lt_of_le_of_lt hle hlt) hlt),
        if_pos (slot_lt hlt (lt_of_le_of_lt hle hlt))]
      by_cases h1 : a * T + b = eb * T + ea
      · obtain ⟨hae, hbe⟩ := slot_inj hb (lt_of_le_of_lt hle hlt) h1
        have h2 : b * T + a = ea * T + eb := by rw [hae, hbe]
        rw [h1, h2, Function.update_same]
        by_cases h3 : ea * T + eb = eb * T + ea
        · rw [h3, Function.update_same]
        · rw [Function.update_noteq h3, Function.update_same]
      · by_cases h2 : b * T + a = eb * T + ea
        · obtain ⟨hbe, hae⟩ := slot_inj ha (lt_of_le_of_lt hle hlt) h2
          have h1' : a * T + b = ea * T + eb := by rw [hae, hbe]
          rw [h2, h1', Function.update_same]
          by_cases h3 : ea * T + eb = eb * T + ea
          · rw [h3, Function.update_same]
          · rw [Function.update_noteq h3, Function.update_same]
        · rw [Function.update_noteq h1, Function.update_noteq h2]
          by_cases h3 : a * T + b = ea * T + eb
          · obtain ⟨hae, hbe⟩ := slot_inj hb hlt h3
            have h4 : b * T + a = eb * T + ea := by rw [hae, hbe]
            exact absurd h4 h2
          · by_cases h4 : b * T + a = ea * T + eb
            · obtain ⟨hbe, hae⟩ := slot_inj ha hlt h4
              have h5 : a * T + b = eb * T + ea := by rw [hae, hbe]
              exact absurd h5 h1
            · rw [Function.update_noteq h3, Function.update_noteq h4]
              exact hA
  exact key m _ hwt rfl

/-- Oddness of the per-axis minimum-image wrap for positive box length. -/
theorem wrapDelta_neg (per : Bool) (L d : ℚ) (hL : 0 < L) :
    wrapDelta per L (-d) = -wrapDelta per L d := by
  unfold wrapDelta
  by_cases hper : per = true
  · rw [if_pos hper, if_pos hper]
    by_cases h1 : d > L * (1/2)
    · rw [if_pos h1, if_neg (by linarith), if_pos (by linarith)]
      ring
    · rw [if_neg h1]
      by_cases h2 : d < -(L * (1/2))
      · rw [if_pos h2, if_pos (by linarith)]
        ring
      · rw [if_neg h2, if_neg (by push_neg at h1 h2 ⊢; linarith),
          if_neg (by push_neg at h1 h2 ⊢; linarith)]
  · rw [if_neg hper, if_neg hper]

/-- C2: (a) for every type pair stored in the coefficient matrix (as
`setCoeff` stores it), the packed coefficient buffer holds, at both slots
`ti·T+tj` and `tj·T+ti`, exactly `lj1 = 48εσ¹²`, `lj2 = 24εσ⁶`,
`lj3 = 4εσ¹²`, `lj4 = 4εσ⁶`, `cutsq = rc²` and
`offset = 4ε((σ/rc)¹² − (σ/rc)⁶)`; and (b) for every atom `i` the kernel's
force/energy output is the componentwise sum, over the neighbors `j` in
`i`'s row, of the claimed contribution: inside the cutoff, `delta·fpair`
with `fpair = r6inv·(lj1·r6inv − lj2)·r2inv`, `r2inv = 1/rsq`,
`r6inv = r2inv³`, and energy `½·(r6inv·(lj3·r6inv − lj4) − offset)`;
nothing outside. -/
theorem C2_lj_coefficients_and_kernel
    (T ti tj : ℕ) (eps sig rc : ℚ) (m : List ((ℕ × ℕ) × LJRaw))
    (hnd : (m.map Prod.fst).Nodup)
    (hwt : ∀ e ∈ m, e.fst.1 ≤ e.fst.2 ∧ e.fst.2 < T)
    (hget : pcmGet m ti tj = some ⟨eps, sig, rc⟩) :
    (packForGPU T m (ti * T + tj) =
      ⟨48 * eps * sig ^ 12, 24 * eps * sig ^ 6, 4 * eps * sig ^ 12,
        4 * eps * sig ^ 6, rc ^ 2,
        4 * eps * ((sig / rc) ^ 12 - (sig / rc) ^ 6)⟩) ∧
    (packForGPU T m (tj * T + ti) =
      ⟨48 * eps * sig ^ 12, 24 * eps * sig ^ 6, 4 * eps * sig ^ 12,
        4 * eps * sig ^ 6, rc ^ 2,
        4 * eps * ((sig / rc) ^ 12 - (sig / rc) ^ 6)⟩) ∧
    ∀ (b : Box) (coeffs : ℕ → LJC) (pos : ℕ → Vec3) (types : ℕ → ℕ)
      (i : ℕ) (row : List ℕ),
      computeForcesAtom b T coeffs pos types true i row =
        ⟨(row.map fun j => (specLJContribution b T coeffs pos types i j).1).sum,
          (row.map fun j => (specLJContribution b T coeffs pos types i j).2.1).sum,
          (row.map fun j => (specLJContribution b T coeffs pos types i j).2.2.1).sum,
          (row.map fun j => (specLJContribution b T coeffs pos types i j).2.2.2).sum⟩ := by
  have hfind : ∃ e, m.find? (fun e => decide (e.fst = pcmKey ti tj)) = some e ∧
      e.snd = LJRaw.mk eps sig rc := by
    unfold pcmGet at hget
    rcases hx : m.find? (fun e => decide (e.fst = pcmKey ti tj)) with _ | e
    · rw [hx] at hget; cases hget
    · rw [hx] at hget
      exact ⟨e, hx, by simpa using hget⟩
  obtain ⟨e, hfind, hsnd⟩ := hfind
  have hmem0 : e ∈ m := List.mem_of_find?_eq_some hfind
  have hkey : e.fst = pcmKey ti tj := by
    have := List.find?_some hfind
    exact of_decide_eq_true this
  have hmem : (pcmKey ti tj, LJRaw.mk eps sig rc) ∈ m := by
    have : e = (pcmKey ti tj, LJRaw.mk eps sig rc) := by
      obtain ⟨ek, ev⟩ := e
      simp only at hkey hsnd
      rw [hkey, hsnd]
    exact this ▸ hmem0
  have hbounds : ti < T ∧ tj < T := by
    obtain ⟨hle, hlt⟩ := hwt _ hmem
    simp only at hle hlt
    unfold pcmKey at hle hlt
    by_cases hij : ti ≤ tj
    · rw [if_pos hij] at hle hlt
      simp only at hle hlt
      omega
    · rw [if_neg hij] at hle hlt
      simp only at hle hlt
      omega
  have hpack : packLJ (LJRaw.mk eps sig rc) =
      ⟨48 * eps * sig ^ 12, 24 * eps * sig ^ 6, 4 * eps * sig ^ 12,
        4 * eps * sig ^ 6, rc ^ 2,
        4 * eps * ((sig / rc) ^ 12 - (sig / rc) ^ 6)⟩ := by
    unfold packLJ
    simp only [LJC.mk.injEq]
    refine ⟨by ring, by ring, by ring, by ring, by ring, by ring⟩
  refine ⟨?_, ?_, fun b coeffs pos types i row => computeForcesAtom_eq_sum _ _ _ _ _ _ _⟩
  · rw [packForGPU_lookup T ti tj hbounds.1 hbounds.2 m _ hnd hwt hmem, hpack]
  · rw [packForGPU_lookup T tj ti hbounds.2 hbounds.1 m _ hnd hwt
      (pcmKey_comm tj ti ▸ hmem), hpack]

/-- Witness for `C2_lj_coefficients_and_kernel`: a 1-type matrix configured
by `setCoeff 0 0` with `ε = 1`, `σ = 1` and per-pair cutoff `5/2`. -/
theorem C2_lj_coefficients_and_kernel_witness :
    (((setCoeff [] 0 0 1 1 none (5/2)).map Prod.fst).Nodup) ∧
    (∀ e ∈ setCoeff [] 0 0 1 1 none (5/2), e.fst.1 ≤ e.fst.2 ∧ e.fst.2 < 1) ∧
    (pcmGet (setCoeff [] 0 0 1 1 none (5/2)) 0 0 = some ⟨1, 1, 5/2⟩) ∧
    ((packForGPU 1 (setCoeff [] 0 0 1 1 none (5/2)) (0 * 1 + 0) =
      ⟨48 * 1 * 1 ^ 12, 24 * 1 * 1 ^ 6, 4 * 1 * 1 ^ 12, 4 * 1 * 1 ^ 6,
        (5/2) ^ 2, 4 * 1 * ((1 / (5/2)) ^ 12 - (1 / (5/2)) ^ 6)⟩) ∧
    (packForGPU 1 (setCoeff [] 0 0 1 1 none (5/2)) (0 * 1 + 0) =
      ⟨48 * 1 * 1 ^ 12, 24 * 1 * 1 ^ 6, 4 * 1 * 1 ^ 12, 4 * 1 * 1 ^ 6,
        (5/2) ^ 2, 4 * 1 * ((1 / (5/2)) ^ 12 - (1 / (5/2)) ^ 6)⟩) ∧
    ∀ (b : Box) (coeffs : ℕ → LJC) (pos : ℕ → Vec3) (types : ℕ → ℕ)
      (i : ℕ) (row : List ℕ),
      computeForcesAtom b 1 coeffs pos types true i row =
        ⟨(row.map fun j => (specLJContribution b 1 coeffs pos types i j).1).sum,
          (row.map fun j => (specLJContribution b 1 coeffs pos types i j).2.1).sum,
          (row.map fun j => (specLJContribution b 1 coeffs pos types i j).2.2.1).sum,
          (row.map fun j => (specLJContribution b 1 coeffs pos types i j).2.2.2).sum⟩) :=
  ⟨by decide, by decide, by rfl,
    C2_lj_coefficients_and_kernel 1 0 0 1 1 (5/2) _ (by decide) (by decide) (by rfl)⟩

/-- C4: Newton's third law for a two-particle system in which each particle
is the other's only neighbor: with the packed (symmetric) coefficient
matrix, the kernel's force on particle 0 is the negation of its force on
particle 1. -/
theorem C4_newton_third_law (T : ℕ) (m : List ((ℕ × ℕ) × LJRaw))
    (hwt : ∀ e ∈ m, e.fst.1 ≤ e.fst.2 ∧ e.fst.2 < T)
    (b : Box) (hLx : 0 < b.Lx) (hLy : 0 < b.Ly) (hLz : 0 < b.Lz)
    (pos : ℕ → Vec3) (types : ℕ → ℕ) (h0 : types 0 < T) (h1 : types 1 < T)
    (ce : Bool) :
    (computeForcesAtom b T (packForGPU T m) pos types ce 0 [1]).fx =
      -(computeForcesAtom b T (packForGPU T m) pos types ce 1 [0]).fx ∧
    (computeForcesAtom b T (packForGPU T m) pos types ce 0 [1]).fy =
      -(computeForcesAtom b T (packForGPU T m) pos types ce 1 [0]).fy ∧
    (computeForcesAtom b T (packForGPU T m) pos types ce 0 [1]).fz =
      -(computeForcesAtom b T (packForGPU T m) pos types ce 1 [0]).fz := by
  have hcoeff : packForGPU T m (types 1 * T + types 0) =
      packForGPU T m (types 0 * T + types 1) :=
    packForGPU_symm T (types 1) (types 0) h1 h0 m hwt
  have hfold0 : computeForcesAtom b T (packForGPU T m) pos types ce 0 [1] =
      ljNeighborStep b T (packForGPU T m) pos types ce 0 ⟨0, 0, 0, 0⟩ 1 := rfl
  have hfold1 : computeForcesAtom b T (packForGPU T m) pos types ce 1 [0] =
      ljNeighborStep b T (packForGPU T m) pos types ce 1 ⟨0, 0, 0, 0⟩ 0 := rfl
  rw [hfold0, hfold1]
  unfold ljNeighborStep
  simp only
  have hnx : (pos 1).x - (pos 0).x = -((pos 0).x - (pos 1).x) := by ring
  have hny : (pos 1).y - (pos 0).y = -((pos 0).y - (pos 1).y) := by ring
  have hnz : (pos 1).z - (pos 0).z = -((pos 0).z - (pos 1).z) := by ring
  rw [hnx, hny, hnz]
  unfold minimumImage
  simp only
  rw [wrapDelta_neg _ _ _ hLx, wrapDelta_neg _ _ _ hLy, wrapDelta_neg _ _ _ hLz,
    hcoeff]
  set wx := wrapDelta b.perX b.Lx ((pos 0).x - (pos 1).x) with hwx
  set wy := wrapDelta b.perY b.Ly ((pos 0).y - (pos 1).y) with hwy
  set wz := wrapDelta b.perZ b.Lz ((pos 0).z - (pos 1).z) with hwz
  have hrsq : -wx * -wx + -wy * -wy + -wz * -wz = wx * wx + wy * wy + wz * wz := by
    ring
  rw [hrsq]
  by_cases hcut : wx * wx + wy * wy + wz * wz <
      (packForGPU T m (types 0 * T + types 1)).cutsq
  · rw [if_pos hcut, if_pos hcut]
    refine ⟨by simp only; ring, by simp only; ring, by simp only; ring⟩
  · rw [if_neg hcut, if_neg hcut]
    norm_num

/-- Witness for `C4_newton_third_law` on a concrete two-particle system. -/
theorem C4_newton_third_law_witness :
    (∀ e ∈ [((0, 0), LJRaw.mk 1 1 (5/2))], e.fst.1 ≤ e.fst.2 ∧ e.fst.2 < 1) ∧
    (0 : ℚ) < 10 ∧ (0 : ℚ) < 10 ∧ (0 : ℚ) < 10 ∧ (0 < 1 ∧ 0 < 1) ∧
    ((computeForcesAtom ⟨0, 0, 0, 10, 10, 10, true, true, true⟩ 1
        (packForGPU 1 [((0, 0), LJRaw.mk 1 1 (5/2))])
        (fun n => if n = 0 then ⟨1, 1, 1⟩ else ⟨2, 1, 1⟩) (fun _ => 0) true 0 [1]).fx =
      -(computeForcesAtom ⟨0, 0, 0, 10, 10, 10, true, true, true⟩ 1
        (packForGPU 1 [((0, 0), LJRaw.mk 1 1 (5/2))])
        (fun n => if n = 0 then ⟨1, 1, 1⟩ else ⟨2, 1, 1⟩) (fun _ => 0) true 1 [0]).fx ∧
    (computeForcesAtom ⟨0, 0, 0, 10, 10, 10, true, true, true⟩ 1
        (packForGPU 1 [((0, 0), LJRaw.mk 1 1 (5/2))])
        (fun n => if n = 0 then ⟨1, 1, 1⟩ else ⟨2, 1, 1⟩) (fun _ => 0) true 0 [1]).fy =
      -(computeForcesAtom ⟨0, 0, 0, 10, 10, 10, true, true, true⟩ 1
        (packForGPU 1 [((0, 0), LJRaw.mk 1 1 (5/2))])
        (fun n => if n = 0 then ⟨1, 1, 1⟩ else ⟨2, 1, 1⟩) (fun _ => 0) true 1 [0]).fy ∧
    (computeForcesAtom ⟨0, 0, 0, 10, 10, 10, true, true, true⟩ 1
        (packForGPU 1 [((0, 0), LJRaw.mk 1 1 (5/2))])
        (fun n => if n = 0 then ⟨1, 1, 1⟩ else ⟨2, 1, 1⟩) (fun _ => 0) true 0 [1]).fz =
      -(computeForcesAtom ⟨0, 0, 0, 10, 10, 10, true, true, true⟩ 1
        (packForGPU 1 [((0, 0), LJRaw.mk 1 1 (5/2))])
        (fun n => if n = 0 then ⟨1, 1, 1⟩ else ⟨2, 1, 1⟩) (fun _ => 0) true 1 [0]).fz) :=
  ⟨by decide, by norm_num, by norm_num, by norm_num, ⟨Nat.zero_lt_one, Nat.zero_lt_one⟩,
    C4_newton_third_law 1 [((0, 0), LJRaw.mk 1 1 (5/2))] (by decide)
      ⟨0, 0, 0, 10, 10, 10, true, true, true⟩ (by norm_num) (by norm_num) (by norm_num)
      (fun n => if n = 0 then ⟨1, 1, 1⟩ else ⟨2, 1, 1⟩) (fun _ => 0)
      Nat.zero_lt_one Nat.zero_lt_one true⟩

/-! ## Cell-list grid geometry -/

/-- Per-axis cell count of `CellList.updateBox`
(`src/src/compute/index.ts` lines 117-135): `max(1, floor(boxLength /
cellSize))`, where the cell size is the `CellList`'s cutoff.  The
`NeighborList` constructs its cell list with `cutoff + skin` (line 508 of
`gpu.integration.test.ts`), so in the neighbor pipeline `c` is the search
radius. -/
def numCellsAxis (L c : ℚ) : ℕ := max 1 (Int.toNat ⌊L / c⌋)

/-- Per-axis effective cell size after `updateBox` adjusts it to tile the
box exactly (`index.ts` lines 133-135). -/
def cellSizeAxis (L c : ℚ) : ℚ := L / (numCellsAxis L c : ℚ)

/-- C5 counterexample: a box of length `1` with search radius
`cutoff + skin = 14/5` gets one cell of edge `1`, which is smaller than the
search radius. -/
theorem C5_counterexample :
    numCellsAxis 1 (14/5) = 1 ∧ cellSizeAxis 1 (14/5) = 1 ∧
      ¬((14/5 : ℚ) ≤ cellSizeAxis 1 (14/5)) := by
  refine ⟨?_, ?_, ?_⟩
  · norm_num [numCellsAxis]
  · norm_num [cellSizeAxis, numCellsAxis]
  · norm_num [cellSizeAxis, numCellsAxis]

/-- C5 (amended): after `updateBox`, each axis has
`max(1, floor(boxLength / (cutoff+skin)))` cells, the effective cell size
exactly tiles the box, and — whenever the box length is at least the search
radius — the cell edge is at least `cutoff + skin`.  (For a box shorter
than the search radius the single cell is necessarily smaller.) -/
theorem C5_cell_grid (L cutoff skin : ℚ) (hL : 0 < L) (hc : 0 < cutoff + skin) :
    numCellsAxis L (cutoff + skin) = max 1 (Int.toNat ⌊L / (cutoff + skin)⌋) ∧
    cellSizeAxis L (cutoff + skin) * (numCellsAxis L (cutoff + skin) : ℚ) = L ∧
    (cutoff + skin ≤ L → cutoff + skin ≤ cellSizeAxis L (cutoff + skin)) := by
  refine ⟨rfl, ?_, ?_⟩
  · have hM : 1 ≤ numCellsAxis L (cutoff + skin) := le_max_left 1 _
    have hM0 : ((numCellsAxis L (cutoff + skin) : ℚ)) ≠ 0 :=
      Nat.cast_ne_zero.mpr (by omega)
    unfold cellSizeAxis
    field_simp
  · intro hcle
    have hq1 : (1 : ℚ) ≤ L / (cutoff + skin) := (one_le_div hc).mpr hcle
    have hfl1 : (1 : ℤ) ≤ ⌊L / (cutoff + skin)⌋ := by
      rw [Int.le_floor]; exact_mod_cast hq1
    have htn : (1 : ℕ) ≤ Int.toNat ⌊L / (cutoff + skin)⌋ := by
      omega
    have hMeq : numCellsAxis L (cutoff + skin) = Int.toNat ⌊L / (cutoff + skin)⌋ := by
      unfold numCellsAxis
      omega
    have hMle : ((numCellsAxis L (cutoff + skin) : ℚ)) ≤ L / (cutoff + skin) := by
      rw [hMeq]
      have h1 : ((Int.toNat ⌊L / (cutoff + skin)⌋ : ℤ) : ℚ) = (⌊L / (cutoff + skin)⌋ : ℚ) := by
        congr 1
        omega
      calc ((Int.toNat ⌊L / (cutoff + skin)⌋ : ℕ) : ℚ)
          = ((Int.toNat ⌊L / (cutoff + skin)⌋ : ℤ) : ℚ) := by push_cast; ring
        _ = (⌊L / (cutoff + skin)⌋ : ℚ) := h1
        _ ≤ L / (cutoff + skin) := Int.floor_le _
    have hMpos : (0 : ℚ) < (numCellsAxis L (cutoff + skin) : ℚ) := by
      exact_mod_cast lt_of_lt_of_le Nat.zero_lt_one (le_max_left 1 _)
    unfold cellSizeAxis
    rw [le_div_iff hMpos]
    calc (cutoff + skin) * (numCellsAxis L (cutoff + skin) : ℚ)
        ≤ (cutoff + skin) * (L / (cutoff + skin)) :=
          mul_le_mul_of_nonneg_left hMle (le_of_lt hc)
      _ = L := by field_simp

/-- Witness for `C5_cell_grid` at `L = 10`, `cutoff = 5/2`, `skin = 3/10`. -/
theorem C5_cell_grid_witness :
    (0 : ℚ) < 10 ∧ (0 : ℚ) < 5/2 + 3/10 ∧
      (numCellsAxis 10 (5/2 + 3/10) = max 1 (Int.toNat ⌊(10 : ℚ) / (5/2 + 3/10)⌋) ∧
        cellSizeAxis 10 (5/2 + 3/10) * (numCellsAxis 10 (5/2 + 3/10) : ℚ) = 10 ∧
        ((5/2 : ℚ) + 3/10 ≤ 10 → 5/2 + 3/10 ≤ cellSizeAxis 10 (5/2 + 3/10))) :=
  ⟨by norm_num, by norm_num, C5_cell_grid 10 (5/2) (3/10) (by norm_num) (by norm_num)⟩

/-! ## Cell-list binning and neighbor-list construction -/

/-- The grid parameters shared by the binning and neighbor kernels: the box
together with the per-axis cell counts and effective cell sizes, as
`CellList.updateBox` computes them and `NeighborList.updateParams` forwards
them. -/
structure Grid where
  box : Box
  Mx : ℕ
  My : ℕ
  Mz : ℕ
  sx : ℚ
  sy : ℚ
  sz : ℚ

/-- `CellList.updateBox` for a box and search radius `c`
(`src/src/compute/index.ts` lines 117-135). -/
def gridOf (b : Box) (c : ℚ) : Grid where
  box := b
  Mx := numCellsAxis b.Lx c
  My := numCellsAxis b.Ly c
  Mz := numCellsAxis b.Lz c
  sx := cellSizeAxis b.Lx c
  sy := cellSizeAxis b.Ly c
  sz := cellSizeAxis b.Lz c

/-- The unconditional periodic wrap of `positionToCell`
(`src/shaders/cellList.wgsl` lines 42-45): `p - floor(p/L)·L`. -/
def wrapCoord (L p : ℚ) : ℚ := p - (⌊p / L⌋ : ℚ) * L

/-- The per-axis cell coordinate of `positionToCell` (`cellList.wgsl` lines
47-50): truncate `p / cellSize` (the WGSL `u32()` cast saturates negatives
to `0`, which `Int.toNat` matches) and clamp to the last cell. -/
def cellCoord (M : ℕ) (s p : ℚ) : ℕ := min (Int.toNat ⌊p / s⌋) (M - 1)

/-- The three cell coordinates of an atom (`positionToCell`,
`cellList.wgsl` lines 36-53). -/
def atomCellCoords (g : Grid) (v : Vec3) : ℕ × ℕ × ℕ :=
  (cellCoord g.Mx g.sx (wrapCoord g.box.Lx (v.x - g.box.ox)),
    cellCoord g.My g.sy (wrapCoord g.box.Ly (v.y - g.box.oy)),
    cellCoord g.Mz g.sz (wrapCoord g.box.Lz (v.z - g.box.oz)))

/-- `cellIndex` of the binning shader (`cellList.wgsl` lines 31-33). -/
def cellLinear (g : Grid) (ix iy iz : ℕ) : ℕ :=
  ix + iy * g.Mx + iz * g.Mx * g.My

/-- The linear cell index stored into `atomCell` by `binAtoms`
(`cellList.wgsl` lines 79-83). -/
def atomCellLinear (g : Grid) (v : Vec3) : ℕ :=
  cellLinear g (atomCellCoords g v).1 (atomCellCoords g v).2.1
    (atomCellCoords g v).2.2

/-- State of the binning pass: the per-cell counters (`cellCounts`) and the
stored per-cell atom lists (`cellAtoms`, capacity `maxAtomsPerCell`). -/
structure BinState where
  counts : ℕ → ℕ
  stored : ℕ → List ℕ

/-- One atom of `binAtoms` (`cellList.wgsl` lines 65-95): atomically claim
the next slot by incrementing the cell's counter, and store the atom only
when the claimed slot is below capacity.  The claim order is modelled as
particle-index order (the source guarantees no ordering). -/
def binStep (g : Grid) (pos : ℕ → Vec3) (cap : ℕ) (st : BinState) (a : ℕ) :
    BinState :=
  let cIdx := atomCellLinear g (pos a)
  let slot := st.counts cIdx
  { counts := fun d => if d = cIdx then st.counts d + 1 else st.counts d
    stored := fun d =>
      if d = cIdx ∧ slot < cap then st.stored d ++ [a] else st.stored d }

/-- `CellList.build` (`src/src/compute/index.ts` lines 180-217):
`resetCells` zeroes every counter, then `binAtoms` runs over all atoms. -/
def binAtoms (g : Grid) (pos : ℕ → Vec3) (N cap : ℕ) : BinState :=
  (List.range N).foldl (binStep g pos cap) ⟨fun _ => 0, fun _ => []⟩

/-- The atoms among `0..N-1` that `positionToCell` maps into cell `c`, in
index order. -/
def cellMembers (g : Grid) (pos : ℕ → Vec3) (N c : ℕ) : List ℕ :=
  (List.range N).filter fun a => decide (atomCellLinear g (pos a) = c)

/-- `isCellValid` (`cellList.wgsl` lines 154-165): on a non-periodic axis an
out-of-range stencil cell is excluded. -/
def isCellValid (g : Grid) (ix iy iz : ℤ) : Bool :=
  if g.box.perX = false ∧ (ix < 0 ∨ (g.Mx : ℤ) ≤ ix) then false
  else if g.box.perY = false ∧ (iy < 0 ∨ (g.My : ℤ) ≤ iy) then false
  else if g.box.perZ = false ∧ (iz < 0 ∨ (g.Mz : ℤ) ≤ iz) then false
  else true

/-- The neighbor shader's `cellIndex` (`cellList.wgsl` lines 134-151): wrap
each periodic axis by `(c + M) % M`, then linearise.  The `u32` casts are
modelled by `Int.toNat`; every reachable coordinate is non-negative (valid
non-periodic cells are in range, and wrapped periodic ones are
non-negative). -/
def cellIndexWrap (g : Grid) (ix iy iz : ℤ) : ℕ :=
  let cx := if g.box.perX then (ix + g.Mx) % g.Mx else ix
  let cy := if g.box.perY then (iy + g.My) % g.My else iy
  let cz := if g.box.perZ then (iz + g.Mz) % g.Mz else iz
  cx.toNat + cy.toNat * g.Mx + cz.toNat * g.Mx * g.My

/-- The 3×3×3 stencil offsets in loop order (`dz` outer, `dy` middle, `dx`
inner; `buildNeighborList`, `cellList.wgsl` lines 221-223). -/
def stencilOffsets : List (ℤ × ℤ × ℤ) :=
  ([-1, 0, 1] : List ℤ).bind fun dz =>
    ([-1, 0, 1] : List ℤ).bind fun dy =>
      ([-1, 0, 1] : List ℤ).map fun dx => (dx, dy, dz)

/-- The valid stencil cells around cell coordinates `(icx, icy, icz)`, as
linear indices in visit order (`buildNeighborList`, `cellList.wgsl` lines
220-235). -/
def stencilCells (g : Grid) (icx icy icz : ℕ) : List ℕ :=
  stencilOffsets.filterMap fun o =>
    if isCellValid g ((icx : ℤ) + o.1) ((icy : ℤ) + o.2.1) ((icz : ℤ) + o.2.2) then
      some (cellIndexWrap g ((icx : ℤ) + o.1) ((icy : ℤ) + o.2.1) ((icz : ℤ) + o.2.2))
    else none

/-- The squared minimum-image distance test of `buildNeighborList`
(`cellList.wgsl` lines 246-253). -/
def neighTestSq (b : Box) (pos : ℕ → Vec3) (i j : ℕ) : ℚ :=
  let d := minimumImage b ((pos i).x - (pos j).x) ((pos i).y - (pos j).y)
    ((pos i).z - (pos j).z)
  d.x * d.x + d.y * d.y + d.z * d.z

/-- The neighbor-append step of `buildNeighborList` (`cellList.wgsl` lines
238-263): skip self, test the squared distance against the effective
cutoff, append only while below the `maxNeighbors` capacity. -/
def neighStep (b : Box) (pos : ℕ → Vec3) (cutoffSq : ℚ) (maxN i : ℕ)
    (acc : List ℕ) (j : ℕ) : List ℕ :=
  if j = i then acc
  else if neighTestSq b pos i j < cutoffSq then
    if acc.length < maxN then acc ++ [j] else acc
  else acc

/-- `buildNeighborList` for atom `i` (`cellList.wgsl` lines 198-270):
decompose the atom's linear cell index, walk the valid stencil cells, and
fold the append step over each visited cell's stored atoms (the `k`-loop
reads exactly `min(cellCount, maxAtomsPerCell)` entries, which is the whole
stored list). -/
def neighRow (g : Grid) (pos : ℕ → Vec3) (stored : ℕ → List ℕ)
    (cutoffSq : ℚ) (maxN i : ℕ) : List ℕ :=
  let iCell := atomCellLinear g (pos i)
  let icx := iCell % g.Mx
  let icy := (iCell / g.Mx) % g.My
  let icz := iCell / (g.Mx * g.My)
  ((stencilCells g icx icy icz).bind stored).foldl
    (neighStep g.box pos cutoffSq maxN i) []

/-- The candidates of atom `i` in visit order: every stored atom of every
visited stencil cell that passes the self/cutoff test, before the
`maxNeighbors` truncation. -/
def neighCandidates (g : Grid) (pos : ℕ → Vec3) (stored : ℕ → List ℕ)
    (cutoffSq : ℚ) (i : ℕ) : List ℕ :=
  let iCell := atomCellLinear g (pos i)
  let icx := iCell % g.Mx
  let icy := (iCell / g.Mx) % g.My
  let icz := iCell / (g.Mx * g.My)
  ((stencilCells g icx icy icz).bind stored).filter fun j =>
    decide (j ≠ i ∧ neighTestSq g.box pos i j < cutoffSq)

/-- `NeighborList.build` (`src/src/compute/gpu.integration.test.ts` lines
595-629): build the cell list from the positions, then the per-atom rows,
with `cutoffSq = (cutoff + skin)²` (`updateParams`, line 567) and the cell
list sized to `cutoff + skin` (line 508). -/
def neighborListRows (b : Box) (cutoff skin : ℚ) (pos : ℕ → Vec3)
    (N cap maxN i : ℕ) : List ℕ :=
  neighRow (gridOf b (cutoff + skin)) pos
    (binAtoms (gridOf b (cutoff + skin)) pos N cap).stored
    ((cutoff + skin) * (cutoff + skin)) maxN i

/-- `numNeighbors[i]` after a build (`cellList.wgsl` line 269). -/
def numNeighbors (b : Box) (cutoff skin : ℚ) (pos : ℕ → Vec3)
    (N cap maxN i : ℕ) : ℕ :=
  (neighborListRows b cutoff skin pos N cap maxN i).length

/-- The number of neighbor candidates of atom `i` before the `maxNeighbors`
truncation (build with per-cell capacity `cap`). -/
def uncappedNeighborCount (b : Box) (cutoff skin : ℚ) (pos : ℕ → Vec3)
    (N cap i : ℕ) : ℕ :=
  (neighCandidates (gridOf b (cutoff + skin)) pos
    (binAtoms (gridOf b (cutoff + skin)) pos N cap).stored
    ((cutoff + skin) * (cutoff + skin)) i).length

/-- The true minimum-image delta on one axis: wrapped on a periodic axis,
raw otherwise (spec §4.4 and §8). -/
def trueDeltaAxis (per : Bool) (L d : ℚ) : ℚ := if per then minImageQ L d else d

/-- The true squared minimum-image separation of two points (spec §8:
"true (minimum-image) separation"). -/
def minImageSepSq (b : Box) (p q : Vec3) : ℚ :=
  trueDeltaAxis b.perX b.Lx (p.x - q.x) ^ 2 +
    trueDeltaAxis b.perY b.Ly (p.y - q.y) ^ 2 +
    trueDeltaAxis b.perZ b.Lz (p.z - q.z) ^ 2

/-- Membership of a position in the box (per axis `origin ≤ coordinate <
origin + length`). -/
def inBox (b : Box) (v : Vec3) : Prop :=
  b.ox ≤ v.x ∧ v.x < b.ox + b.Lx ∧ b.oy ≤ v.y ∧ v.y < b.oy + b.Ly ∧
    b.oz ≤ v.z ∧ v.z < b.oz + b.Lz

/-- Characterisation of the binning pass: each cell's counter counts the
atoms mapped to it, and its stored list is the first `maxAtomsPerCell` of
them in claim order. -/
theorem binAtoms_spec (g : Grid) (pos : ℕ → Vec3) (cap : ℕ) :
    ∀ N c, (binAtoms g pos N cap).counts c = (cellMembers g pos N c).length ∧
      (binAtoms g pos N cap).stored c = (cellMembers g pos N c).take cap := by
  intro N
  induction N with
  | zero =>
    intro c
    constructor
    · simp [binAtoms, cellMembers]
    · simp [binAtoms, cellMembers]
  | succ n ih =>
    intro c
    have hbin : binAtoms g pos (n + 1) cap =
        binStep g pos cap (binAtoms g pos n cap) n := by
      unfold binAtoms
      rw [List.range_succ, List.foldl_append, List.foldl_cons, List.foldl_nil]
    have hmem : cellMembers g pos (n + 1) c =
        cellMembers g pos n c ++
          (if atomCellLinear g (pos n) = c then [n] else []) := by
      unfold cellMembers
      rw [List.range_succ, List.filter_append]
      congr 1
      by_cases hcell : atomCellLinear g (pos n) = c
      · rw [if_pos hcell]; simp [hcell]
      · rw [if_neg hcell]; simp [hcell]
    obtain ⟨ihc, ihs⟩ := ih c
    rw [hbin, hmem]
    unfold binStep
    simp only
    by_cases hcell : c = atomCellLinear g (pos n)
    · have hcell' : atomCellLinear g (pos n) = c := hcell.symm
      have hslot : (binAtoms g pos n cap).counts (atomCellLinear g (pos n)) =
          (cellMembers g pos n c).length := by
        rw [← hcell]
        exact ihc
      constructor
      · rw [if_pos hcell, if_pos hcell', ihc, List.length_append,
          List.length_singleton]
      · rw [if_pos hcell']
        by_cases hcap :
            (binAtoms g pos n cap).counts (atomCellLinear g (pos n)) < cap
        · rw [if_pos ⟨hcell, hcap⟩, ihs]
          rw [hslot] at hcap
          rw [List.take_of_length_le (le_of_lt hcap),
            List.take_of_length_le
              (by rw [List.length_append, List.length_singleton]; omega)]
        · rw [if_neg (fun hcon => hcap hcon.2), ihs]
          rw [hslot] at hcap
          rw [List.take_append_eq_append_take]
          have h0 : cap - (cellMembers g pos n c).length = 0 := by omega
          rw [h0, List.take_zero, List.append_nil]
    · have hcell' : ¬atomCellLinear g (pos n) = c := fun h => hcell h.symm
      constructor
      · rw [if_neg hcell, if_neg hcell', List.append_nil]
        exact ihc
      · rw [if_neg (fun hcon => hcell hcon.1), if_neg hcell', List.append_nil]
        exact ihs

/-- The guarded neighbor-append fold keeps exactly the first
`maxN - acc.length` candidates. -/
theorem neighFold_take (b : Box) (pos : ℕ → Vec3) (cutoffSq : ℚ) (maxN i : ℕ) :
    ∀ (l acc : List ℕ), acc.length ≤ maxN →
      l.foldl (neighStep b pos cutoffSq maxN i) acc =
        acc ++ (l.filter fun j =>
          decide (j ≠ i ∧ neighTestSq b pos i j < cutoffSq)).take
            (maxN - acc.length) := by
  intro l
  induction l with
  | nil => intro acc _; simp
  | cons j t ih =>
    intro acc hacc
    rw [List.foldl_cons, List.filter_cons]
    by_cases hji : j = i
    · have hstep : neighStep b pos cutoffSq maxN i acc j = acc := by
        unfold neighStep
        rw [if_pos hji]
      have hp : decide (j ≠ i ∧ neighTestSq b pos i j < cutoffSq) = false := by
        simp [hji]
      rw [hstep, hp]
      simpa using ih acc hacc
    · by_cases hcut : neighTestSq b pos i j < cutoffSq
      · have hp : decide (j ≠ i ∧ neighTestSq b pos i j < cutoffSq) = true := by
          simp [hji, hcut]
        rw [hp]
        simp only [if_true]
        by_cases hlen : acc.length < maxN
        · have hstep : neighStep b pos cutoffSq maxN i acc j = acc ++ [j] := by
            unfold neighStep
            rw [if_neg hji, if_pos hcut, if_pos hlen]
          rw [hstep, ih (acc ++ [j]) (by simp; omega), List.append_assoc]
          congr 1
          have hm : maxN - acc.length = (maxN - (acc ++ [j]).length) + 1 := by
            simp; omega
          rw [hm, List.take_succ_cons]
          rfl
        · have hstep : neighStep b pos cutoffSq maxN i acc j = acc := by
            unfold neighStep
            rw [if_neg hji, if_pos hcut, if_neg hlen]
          rw [hstep, ih acc hacc]
          have h0 : maxN - acc.length = 0 := by omega
          rw [h0, List.take_zero, List.take_zero]
      · have hstep : neighStep b pos cutoffSq maxN i acc j = acc := by
          unfold neighStep
          rw [if_neg hji, if_neg hcut]
        have hp : decide (j ≠ i ∧ neighTestSq b pos i j < cutoffSq) = false := by
          simp [hcut]
        rw [hstep, hp]
        simpa using ih acc hacc

/-- The built row is the first `maxNeighbors` of the candidate list. -/
theorem neighRow_eq_take (g : Grid) (pos : ℕ → Vec3) (stored : ℕ → List ℕ)
    (cutoffSq : ℚ) (maxN i : ℕ) :
    neighRow g pos stored cutoffSq maxN i =
      (neighCandidates g pos stored cutoffSq i).take maxN := by
  unfold neighRow neighCandidates
  rw [neighFold_take g.box pos cutoffSq maxN i _ [] (by simp)]
  simp

/-- C8: capacity overflow is silent in-bounds truncation.  (a) After
binning, every cell stores exactly `min(cellCount, maxAtomsPerCell)` atom
entries — the first `maxAtomsPerCell` claims in order, the rest dropped
without any out-of-bounds write (the stored list is a prefix of the cell's
members); the neighbor walk reads exactly this stored list, i.e. at most
`min(cellCount, maxAtomsPerCell)` entries per cell.  (b) After every build,
each atom's neighbor row is the first `maxNeighbors` of its candidates, so
`numNeighbors[i] ≤ maxNeighbors` always. -/
theorem C8_capacity_truncation (g : Grid) (pos : ℕ → Vec3) (N cap : ℕ)
    (b : Box) (cutoff skin : ℚ) (maxN : ℕ) :
    (∀ c, ((binAtoms g pos N cap).stored c).length =
        min ((binAtoms g pos N cap).counts c) cap) ∧
    (∀ c, (binAtoms g pos N cap).stored c = (cellMembers g pos N c).take cap) ∧
    (∀ i, neighborListRows b cutoff skin pos N cap maxN i =
        (neighCandidates (gridOf b (cutoff + skin)) pos
          (binAtoms (gridOf b (cutoff + skin)) pos N cap).stored
          ((cutoff + skin) * (cutoff + skin)) i).take maxN) ∧
    (∀ i, numNeighbors b cutoff skin pos N cap maxN i ≤ maxN) := by
  refine ⟨?_, ?_, ?_, ?_⟩
  · intro c
    obtain ⟨hc, hs⟩ := binAtoms_spec g pos cap N c
    rw [hs, hc, List.length_take, Nat.min_comm]
  · intro c
    exact (binAtoms_spec g pos cap N c).2
  · intro i
    unfold neighborListRows
    exact neighRow_eq_take _ _ _ _ _ _
  · intro i
    unfold numNeighbors neighborListRows
    rw [neighRow_eq_take, List.length_take]
    exact Nat.min_le_left _ _

/-! ### Geometric facts about the cell grid -/

theorem numCellsAxis_pos (L c : ℚ) : 1 ≤ numCellsAxis L c := le_max_left 1 _

theorem cellSizeAxis_mul (L c : ℚ) :
    (numCellsAxis L c : ℚ) * cellSizeAxis L c = L := by
  unfold cellSizeAxis
  have h0 : ((numCellsAxis L c : ℚ)) ≠ 0 :=
    Nat.cast_ne_zero.mpr (by have := numCellsAxis_pos L c; omega)
  field_simp

theorem cellSizeAxis_pos (L c : ℚ) (hL : 0 < L) : 0 < cellSizeAxis L c := by
  unfold cellSizeAxis
  apply div_pos hL
  exact_mod_cast lt_of_lt_of_le Nat.zero_lt_one (numCellsAxis_pos L c)

/-- With at least two cells on an axis, the effective cell size is at least
the search radius. -/
theorem cellSizeAxis_ge (L c : ℚ) (hc : 0 < c) (h2 : 2 ≤ numCellsAxis L c) :
    c ≤ cellSizeAxis L c := by
  have hM2 : 2 ≤ Int.toNat ⌊L / c⌋ := by
    unfold numCellsAxis at h2
    omega
  have hMeq : numCellsAxis L c = Int.toNat ⌊L / c⌋ := by
    unfold numCellsAxis
    omega
  have hnn : 0 ≤ ⌊L / c⌋ := by omega
  have hfloor : ((Int.toNat ⌊L / c⌋ : ℚ)) ≤ L / c := by
    have h1 : ((Int.toNat ⌊L / c⌋ : ℤ) : ℚ) = ((⌊L / c⌋ : ℤ) : ℚ) :=
      congrArg (fun z => ((z : ℤ) : ℚ)) (Int.toNat_of_nonneg hnn)
    calc ((Int.toNat ⌊L / c⌋ : ℕ) : ℚ) = ((Int.toNat ⌊L / c⌋ : ℤ) : ℚ) := by
          push_cast; ring
      _ = ((⌊L / c⌋ : ℤ) : ℚ) := h1
      _ ≤ L / c := Int.floor_le _
  have hMposQ : (0 : ℚ) < (numCellsAxis L c : ℚ) := by
    exact_mod_cast lt_of_lt_of_le Nat.zero_lt_one (numCellsAxis_pos L c)
  unfold cellSizeAxis
  rw [le_div_iff₀ hMposQ]
  calc c * (numCellsAxis L c : ℚ) ≤ c * (L / c) := by
        apply mul_le_mul_of_nonneg_left _ hc.le
        rw [hMeq]
        exact hfloor
    _ = L := by field_simp

theorem wrapCoord_mem (L p : ℚ) (hL : 0 < L) :
    0 ≤ wrapCoord L p ∧ wrapCoord L p < L := by
  unfold wrapCoord
  have h1 : (⌊p / L⌋ : ℚ) ≤ p / L := Int.floor_le _
  have h2 : p / L < ⌊p / L⌋ + 1 := Int.lt_floor_add_one _
  have e : p / L * L = p := div_mul_cancel₀ p hL.ne'
  constructor
  · nlinarith [mul_le_mul_of_nonneg_right h1 hL.le]
  · nlinarith [mul_lt_mul_of_pos_right h2 hL]

theorem wrapCoord_eq_self (L p : ℚ) (hL : 0 < L) (h0 : 0 ≤ p) (h1 : p < L) :
    wrapCoord L p = p := by
  unfold wrapCoord
  have hfl : ⌊p / L⌋ = 0 := by
    rw [Int.floor_eq_zero_iff]
    exact ⟨div_nonneg h0 hL.le, (div_lt_one hL).mpr h1⟩
  rw [hfl]
  push_cast
  ring

theorem cellCoord_lt (M : ℕ) (hM : 1 ≤ M) (s p : ℚ) : cellCoord M s p < M := by
  unfold cellCoord
  have := Nat.min_le_right (Int.toNat ⌊p / s⌋) (M - 1)
  omega

theorem cellCoord_floor (M : ℕ) (s p : ℚ) (hs : 0 < s) (h0 : 0 ≤ p)
    (hlt : p < (M : ℚ) * s) :
    cellCoord M s p = Int.toNat ⌊p / s⌋ ∧ 0 ≤ ⌊p / s⌋ ∧ ⌊p / s⌋ < (M : ℤ) := by
  have hnn : 0 ≤ ⌊p / s⌋ := Int.floor_nonneg.mpr (div_nonneg h0 hs.le)
  have hub : ⌊p / s⌋ < (M : ℤ) := by
    rw [Int.floor_lt]
    push_cast
    rw [div_lt_iff₀ hs]
    linarith
  refine ⟨?_, hnn, hub⟩
  unfold cellCoord
  have hle : Int.toNat ⌊p / s⌋ ≤ M - 1 := by omega
  exact Nat.min_eq_left hle

theorem floor_div_adjacent {s a b : ℚ} (hs : 0 < s) (h : |a - b| < s) :
    ⌊b / s⌋ - 1 ≤ ⌊a / s⌋ ∧ ⌊a / s⌋ ≤ ⌊b / s⌋ + 1 := by
  rw [abs_lt] at h
  constructor
  · have h2 : b / s ≤ (a + s) / s := by
      gcongr
      linarith
    have h3 : (a + s) / s = a / s + 1 := by field_simp
    have h4 : ⌊b / s⌋ ≤ ⌊a / s⌋ + 1 := by
      calc ⌊b / s⌋ ≤ ⌊a / s + 1⌋ := Int.floor_le_floor (by rw [← h3]; exact h2)
        _ = ⌊a / s⌋ + 1 := Int.floor_add_one _
    omega
  · have h2 : a / s ≤ (b + s) / s := by
      gcongr
      linarith
    have h3 : (b + s) / s = b / s + 1 := by field_simp
    calc ⌊a / s⌋ ≤ ⌊b / s + 1⌋ := Int.floor_le_floor (by rw [← h3]; exact h2)
      _ = ⌊b / s⌋ + 1 := Int.floor_add_one _

theorem abs_lt_of_sq_lt {a b : ℚ} (h : a ^ 2 < b ^ 2) (hb : 0 ≤ b) : |a| < b := by
  by_contra hcon
  push_neg at hcon
  have h1 : b ≤ |a| := hcon
  nlinarith [sq_abs a, abs_nonneg a]

/-- Per-axis completeness on a periodic axis: two in-box coordinates whose
true minimum-image delta is below the search radius sit in stencil-adjacent
cells (modulo wrap-around). -/
theorem axis_stencil_periodic (L c : ℚ) (hL : 0 < L) (hc : 0 < c)
    (pxi pxj d : ℚ) (hi0 : 0 ≤ pxi) (hi1 : pxi < L) (hj0 : 0 ≤ pxj)
    (hj1 : pxj < L) (hd : |d| < c) (hcong : ∃ k : ℤ, d = pxi - pxj + k * L) :
    ∃ dx : ℤ, (dx = -1 ∨ dx = 0 ∨ dx = 1) ∧
      (((cellCoord (numCellsAxis L c) (cellSizeAxis L c) pxi : ℤ) + dx +
          (numCellsAxis L c : ℤ)) % (numCellsAxis L c : ℤ)).toNat =
        cellCoord (numCellsAxis L c) (cellSizeAxis L c) pxj := by
  set M := numCellsAxis L c with hMdef
  set s := cellSizeAxis L c with hsdef
  have hMpos : 1 ≤ M := numCellsAxis_pos L c
  have hspos : 0 < s := cellSizeAxis_pos L c hL
  have hMs : (M : ℚ) * s = L := cellSizeAxis_mul L c
  have hilt : pxi < (M : ℚ) * s := by rw [hMs]; exact hi1
  have hjlt : pxj < (M : ℚ) * s := by rw [hMs]; exact hj1
  obtain ⟨hci, hinn, hiub⟩ := cellCoord_floor M s pxi hspos hi0 hilt
  obtain ⟨hcj, hjnn, hjub⟩ := cellCoord_floor M s pxj hspos hj0 hjlt
  by_cases hM1 : M = 1
  · refine ⟨0, Or.inr (Or.inl rfl), ?_⟩
    have h1 : cellCoord M s pxi = 0 := by
      have := cellCoord_lt M hMpos s pxi
      omega
    have h2 : cellCoord M s pxj = 0 := by
      have := cellCoord_lt M hMpos s pxj
      omega
    rw [h1, h2, hM1]
    norm_num
  · have hM2 : 2 ≤ M := by omega
    have hsc : c ≤ s := cellSizeAxis_ge L c hc hM2
    obtain ⟨k, hk⟩ := hcong
    have hsL : s ≤ L := by
      have hM1Q : (1 : ℚ) ≤ (M : ℚ) := by exact_mod_cast hMpos
      nlinarith
    have hcL : c ≤ L := le_trans hsc hsL
    have habs : |(k : ℚ) * L| < c + L := by
      have hkl : (k : ℚ) * L = d - (pxi - pxj) := by linarith
      rw [hkl, sub_eq_add_neg]
      have hsub : |pxi - pxj| < L := abs_lt.mpr ⟨by linarith, by linarith⟩
      calc |d + -(pxi - pxj)| ≤ |d| + |-(pxi - pxj)| := abs_add _ _
        _ = |d| + |pxi - pxj| := by rw [abs_neg]
        _ < c + L := by linarith
    have hkint : k = -1 ∨ k = 0 ∨ k = 1 := by
      rw [abs_mul, abs_of_pos hL] at habs
      have hk2 : |(k : ℚ)| < 2 := by nlinarith [abs_nonneg (k : ℚ)]
      rw [abs_lt] at hk2
      have h1 : k < 2 := by exact_mod_cast hk2.2
      have h2 : -2 < k := by exact_mod_cast hk2.1
      omega
    have hMZ : (1 : ℤ) ≤ (M : ℤ) := by exact_mod_cast hMpos
    rcases hkint with hk0 | hk0 | hk0
    · -- k = -1 : i near the high face, j near the low face
      subst hk0
      have habsd := abs_lt.mp hd
      have hpxj : pxj < c := by
        push_cast at hk
        linarith [habsd.1]
      have hpxi : L - c < pxi := by
        push_cast at hk
        linarith [habsd.2, hj0]
      have hmj : ⌊pxj / s⌋ = 0 := by
        rw [Int.floor_eq_zero_iff]
        refine ⟨div_nonneg hj0 hspos.le, ?_⟩
        rw [div_lt_one hspos]
        exact lt_of_lt_of_le hpxj hsc
      have hmi : ⌊pxi / s⌋ = (M : ℤ) - 1 := by
        have hlow : ((M : ℤ) - 1 : ℤ) ≤ ⌊pxi / s⌋ := by
          rw [Int.le_floor]
          push_cast
          rw [le_div_iff₀ hspos]
          nlinarith
        omega
      refine ⟨1, Or.inr (Or.inr rfl), ?_⟩
      rw [hci, hcj, hmi, hmj]
      have harg : ((Int.toNat ((M : ℤ) - 1) : ℤ) + 1 + (M : ℤ)) = (M : ℤ) * 2 := by
        rw [Int.toNat_of_nonneg (by omega)]
        ring
      rw [harg, Int.mul_emod_right]
    · -- k = 0 : same image, adjacent floors
      subst hk0
      have hdij : |pxi - pxj| < s := by
        push_cast at hk
        have : pxi - pxj = d := by linarith
        rw [this]
        exact lt_of_lt_of_le hd hsc
      obtain ⟨ha1, ha2⟩ := floor_div_adjacent hspos hdij
      refine ⟨⌊pxj / s⌋ - ⌊pxi / s⌋, by omega, ?_⟩
      rw [hci, hcj]
      rw [Int.toNat_of_nonneg hinn]
      have harg : ⌊pxi / s⌋ + (⌊pxj / s⌋ - ⌊pxi / s⌋) + (M : ℤ) =
          ⌊pxj / s⌋ + (M : ℤ) * 1 := by ring
      rw [harg, Int.add_mul_emod_self_left, Int.emod_eq_of_lt hjnn hjub]
    · -- k = 1 : i near the low face, j near the high face
      subst hk0
      have habsd := abs_lt.mp hd
      have hpxi : pxi < c := by
        push_cast at hk
        linarith [habsd.2]
      have hpxj : L - c < pxj := by
        push_cast at hk
        linarith [habsd.1, hi0]
      have hmi : ⌊pxi / s⌋ = 0 := by
        rw [Int.floor_eq_zero_iff]
        refine ⟨div_nonneg hi0 hspos.le, ?_⟩
        rw [div_lt_one hspos]
        exact lt_of_lt_of_le hpxi hsc
      have hmj : ⌊pxj / s⌋ = (M : ℤ) - 1 := by
        have hlow : ((M : ℤ) - 1 : ℤ) ≤ ⌊pxj / s⌋ := by
          rw [Int.le_floor]
          push_cast
          rw [le_div_iff₀ hspos]
          nlinarith
        omega
      refine ⟨-1, Or.inl rfl, ?_⟩
      rw [hci, hcj, hmi, hmj]
      have harg : ((Int.toNat (0 : ℤ) : ℤ) + -1 + (M : ℤ)) = (M : ℤ) - 1 := by
        omega
      rw [harg, Int.emod_eq_of_lt (by omega) (by omega)]

/-- Per-axis completeness on a non-periodic axis: two in-box coordinates
whose raw delta is below the search radius sit in adjacent cells. -/
theorem axis_stencil_nonperiodic (L c : ℚ) (hL : 0 < L) (hc : 0 < c)
    (pxi pxj : ℚ) (hi0 : 0 ≤ pxi) (hi1 : pxi < L) (hj0 : 0 ≤ pxj)
    (hj1 : pxj < L) (hd : |pxi - pxj| < c) :
    ∃ dx : ℤ, (dx = -1 ∨ dx = 0 ∨ dx = 1) ∧
      (cellCoord (numCellsAxis L c) (cellSizeAxis L c) pxi : ℤ) + dx =
        (cellCoord (numCellsAxis L c) (cellSizeAxis L c) pxj : ℤ) := by
  set M := numCellsAxis L c with hMdef
  set s := cellSizeAxis L c with hsdef
  have hMpos : 1 ≤ M := numCellsAxis_pos L c
  have hspos : 0 < s := cellSizeAxis_pos L c hL
  have hMs : (M : ℚ) * s = L := cellSizeAxis_mul L c
  have hilt : pxi < (M : ℚ) * s := by rw [hMs]; exact hi1
  have hjlt : pxj < (M : ℚ) * s := by rw [hMs]; exact hj1
  obtain ⟨hci, hinn, hiub⟩ := cellCoord_floor M s pxi hspos hi0 hilt
  obtain ⟨hcj, hjnn, hjub⟩ := cellCoord_floor M s pxj hspos hj0 hjlt
  by_cases hM1 : M = 1
  · refine ⟨0, Or.inr (Or.inl rfl), ?_⟩
    have h1 : cellCoord M s pxi = 0 := by
      have := cellCoord_lt M hMpos s pxi
      omega
    have h2 : cellCoord M s pxj = 0 := by
      have := cellCoord_lt M hMpos s pxj
      omega
    rw [h1, h2]
    norm_num
  · have hM2 : 2 ≤ M := by omega
    have hsc : c ≤ s := cellSizeAxis_ge L c hc hM2
    have hdij : |pxi - pxj| < s := lt_of_lt_of_le hd hsc
    obtain ⟨ha1, ha2⟩ := floor_div_adjacent hspos hdij
    refine ⟨⌊pxj / s⌋ - ⌊pxi / s⌋, by omega, ?_⟩
    rw [hci, hcj, Int.toNat_of_nonneg hinn, Int.toNat_of_nonneg hjnn]
    ring

/-- For in-box positions the kernel's single-wrap squared distance equals
the true squared minimum-image separation. -/
theorem neighTestSq_eq_sepSq (b : Box) (hLx : 0 < b.Lx) (hLy : 0 < b.Ly)
    (hLz : 0 < b.Lz) (pos : ℕ → Vec3) (i j : ℕ)
    (hibox : inBox b (pos i)) (hjbox : inBox b (pos j)) :
    neighTestSq b pos i j = minImageSepSq b (pos i) (pos j) := by
  obtain ⟨hix0, hix1, hiy0, hiy1, hiz0, hiz1⟩ := hibox
  obtain ⟨hjx0, hjx1, hjy0, hjy1, hjz0, hjz1⟩ := hjbox
  have key : ∀ (per : Bool) (L di dj o : ℚ), 0 < L → o ≤ di → di < o + L →
      o ≤ dj → dj < o + L →
      wrapDelta per L (di - dj) ^ 2 = trueDeltaAxis per L (di - dj) ^ 2 := by
    intro per L di dj o hL h1 h2 h3 h4
    unfold trueDeltaAxis
    by_cases hper : per = true
    · subst hper
      rw [if_pos rfl]
      apply wrapDelta_sq_eq_minImageQ L _ hL
      rw [abs_le]
      constructor <;> nlinarith
    · have hper' : per = false := by
        cases per
        · rfl
        · exact absurd rfl hper
      subst hper'
      rw [if_neg (by simp)]
      rfl
  unfold neighTestSq minimumImage minImageSepSq
  simp only
  have hx := key b.perX b.Lx (pos i).x (pos j).x b.ox hLx hix0 hix1 hjx0 hjx1
  have hy := key b.perY b.Ly (pos i).y (pos j).y b.oy hLy hiy0 hiy1 hjy0 hjy1
  have hz := key b.perZ b.Lz (pos i).z (pos j).z b.oz hLz hiz0 hiz1 hjz0 hjz1
  calc wrapDelta b.perX b.Lx ((pos i).x - (pos j).x) *
        wrapDelta b.perX b.Lx ((pos i).x - (pos j).x) +
      wrapDelta b.perY b.Ly ((pos i).y - (pos j).y) *
        wrapDelta b.perY b.Ly ((pos i).y - (pos j).y) +
      wrapDelta b.perZ b.Lz ((pos i).z - (pos j).z) *
        wrapDelta b.perZ b.Lz ((pos i).z - (pos j).z) =
      wrapDelta b.perX b.Lx ((pos i).x - (pos j).x) ^ 2 +
        wrapDelta b.perY b.Ly ((pos i).y - (pos j).y) ^ 2 +
        wrapDelta b.perZ b.Lz ((pos i).z - (pos j).z) ^ 2 := by ring
    _ = trueDeltaAxis b.perX b.Lx ((pos i).x - (pos j).x) ^ 2 +
        trueDeltaAxis b.perY b.Ly ((pos i).y - (pos j).y) ^ 2 +
        trueDeltaAxis b.perZ b.Lz ((pos i).z - (pos j).z) ^ 2 := by
      rw [hx, hy, hz]

/-- Decomposing the linear cell index recovers the three coordinates. -/
theorem cellLinear_decompose (g : Grid) (x y z : ℕ) (hx : x < g.Mx)
    (hy : y < g.My) (hz : z < g.Mz) :
    cellLinear g x y z % g.Mx = x ∧
      (cellLinear g x y z / g.Mx) % g.My = y ∧
      cellLinear g x y z / (g.Mx * g.My) = z := by
  unfold cellLinear
  have e1 : x + y * g.Mx + z * g.Mx * g.My = x + g.Mx * (y + g.My * z) := by
    ring
  refine ⟨?_, ?_, ?_⟩
  · rw [e1, Nat.add_mul_mod_self_left, Nat.mod_eq_of_lt hx]
  · rw [e1, Nat.add_mul_div_left _ _ (by omega), Nat.div_eq_of_lt hx,
      Nat.zero_add, Nat.add_mul_mod_self_left, Nat.mod_eq_of_lt hy]
  · have hsmall : x + y * g.Mx < g.Mx * g.My := by
      have h1 : x + y * g.Mx < g.Mx + y * g.Mx := Nat.add_lt_add_right hx _
      have h2 : g.Mx + y * g.Mx = (y + 1) * g.Mx := by ring
      have h3 : (y + 1) * g.Mx ≤ g.My * g.Mx := Nat.mul_le_mul_right _ hy
      calc x + y * g.Mx < (y + 1) * g.Mx := h2 ▸ h1
        _ ≤ g.My * g.Mx := h3
        _ = g.Mx * g.My := Nat.mul_comm _ _
    have e2 : x + y * g.Mx + z * g.Mx * g.My =
        (x + y * g.Mx) + (g.Mx * g.My) * z := by ring
    rw [e2, Nat.add_mul_div_left _ _ (by omega), Nat.div_eq_of_lt hsmall,
      Nat.zero_add]

theorem mem_stencilOffsets (dx dy dz : ℤ) (h1 : dx = -1 ∨ dx = 0 ∨ dx = 1)
    (h2 : dy = -1 ∨ dy = 0 ∨ dy = 1) (h3 : dz = -1 ∨ dz = 0 ∨ dz = 1) :
    (dx, dy, dz) ∈ stencilOffsets := by
  rcases h1 with rfl | rfl | rfl <;> rcases h2 with rfl | rfl | rfl <;>
    rcases h3 with rfl | rfl | rfl <;> decide

/-- Per-axis completeness, common form: the stencil offset exists, is valid
on a non-periodic axis, and the shader's cell-index wrap lands exactly on
the other atom's cell coordinate. -/
theorem axis_stencil (per : Bool) (L c : ℚ) (hL : 0 < L) (hc : 0 < c)
    (pxi pxj : ℚ) (hi0 : 0 ≤ pxi) (hi1 : pxi < L) (hj0 : 0 ≤ pxj)
    (hj1 : pxj < L) (hd : |trueDeltaAxis per L (pxi - pxj)| < c) :
    ∃ dx : ℤ, (dx = -1 ∨ dx = 0 ∨ dx = 1) ∧
      (per = false →
        0 ≤ (cellCoord (numCellsAxis L c) (cellSizeAxis L c) pxi : ℤ) + dx ∧
        (cellCoord (numCellsAxis L c) (cellSizeAxis L c) pxi : ℤ) + dx <
          (numCellsAxis L c : ℤ)) ∧
      (if per = true then
          ((cellCoord (numCellsAxis L c) (cellSizeAxis L c) pxi : ℤ) + dx +
            (numCellsAxis L c : ℤ)) % (numCellsAxis L c : ℤ)
        else
          (cellCoord (numCellsAxis L c) (cellSizeAxis L c) pxi : ℤ) + dx).toNat =
        cellCoord (numCellsAxis L c) (cellSizeAxis L c) pxj := by
  by_cases hper : per = true
  · subst hper
    have hd' : |minImageQ L (pxi - pxj)| < c := by
      unfold trueDeltaAxis at hd
      simpa using hd
    obtain ⟨dx, hdx3, hdxeq⟩ := axis_stencil_periodic L c hL hc pxi pxj
      (minImageQ L (pxi - pxj)) hi0 hi1 hj0 hj1 hd'
      (minImageQ_congr L (pxi - pxj))
    exact ⟨dx, hdx3, fun hpf => Bool.noConfusion hpf,
      by rw [if_pos rfl]; exact hdxeq⟩
  · have hper' : per = false := by
      cases per
      · rfl
      · exact absurd rfl hper
    subst hper'
    have hd' : |pxi - pxj| < c := by
      unfold trueDeltaAxis at hd
      simpa using hd
    obtain ⟨dx, hdx3, hdxeq⟩ := axis_stencil_nonperiodic L c hL hc pxi pxj
      hi0 hi1 hj0 hj1 hd'
    refine ⟨dx, hdx3, fun _ => ?_, ?_⟩
    · rw [hdxeq]
      constructor
      · exact_mod_cast Nat.zero_le _
      · exact_mod_cast cellCoord_lt _ (numCellsAxis_pos L c) _ _
    · rw [if_neg (by simp), hdxeq, Int.toNat_natCast]

/-- Core completeness: an atom strictly inside the effective cutoff of atom
`i` (true minimum-image metric), with all capacities sufficient, appears in
`i`'s freshly built row. -/
theorem neighRow_mem_core (b : Box) (hLx : 0 < b.Lx) (hLy : 0 < b.Ly)
    (hLz : 0 < b.Lz) (c : ℚ) (hc : 0 < c) (pos : ℕ → Vec3)
    (N cap maxN i j : ℕ) (hj : j < N) (hji : j ≠ i)
    (hibox : inBox b (pos i)) (hjbox : inBox b (pos j))
    (hsep : minImageSepSq b (pos i) (pos j) < c ^ 2)
    (hcells : ∀ cIdx, (cellMembers (gridOf b c) pos N cIdx).length ≤ cap)
    (hrow : (neighCandidates (gridOf b c) pos
      (binAtoms (gridOf b c) pos N cap).stored (c * c) i).length ≤ maxN) :
    j ∈ neighRow (gridOf b c) pos (binAtoms (gridOf b c) pos N cap).stored
      (c * c) maxN i := by
  obtain ⟨hix0, hix1, hiy0, hiy1, hiz0, hiz1⟩ := hibox
  obtain ⟨hjx0, hjx1, hjy0, hjy1, hjz0, hjz1⟩ := hjbox
  -- raw deltas equal origin-relative deltas
  have hdx : (pos i).x - (pos j).x = ((pos i).x - b.ox) - ((pos j).x - b.ox) := by
    ring
  have hdy : (pos i).y - (pos j).y = ((pos i).y - b.oy) - ((pos j).y - b.oy) := by
    ring
  have hdz : (pos i).z - (pos j).z = ((pos i).z - b.oz) - ((pos j).z - b.oz) := by
    ring
  -- per-axis true deltas are below the cutoff
  have hsep' : trueDeltaAxis b.perX b.Lx
        (((pos i).x - b.ox) - ((pos j).x - b.ox)) ^ 2 +
      trueDeltaAxis b.perY b.Ly
        (((pos i).y - b.oy) - ((pos j).y - b.oy)) ^ 2 +
      trueDeltaAxis b.perZ b.Lz
        (((pos i).z - b.oz) - ((pos j).z - b.oz)) ^ 2 < c ^ 2 := by
    unfold minImageSepSq at hsep
    rw [hdx, hdy, hdz] at hsep
    exact hsep
  have habsx : |trueDeltaAxis b.perX b.Lx
      (((pos i).x - b.ox) - ((pos j).x - b.ox))| < c := by
    apply abs_lt_of_sq_lt _ hc.le
    nlinarith [sq_nonneg (trueDeltaAxis b.perY b.Ly
        (((pos i).y - b.oy) - ((pos j).y - b.oy))),
      sq_nonneg (trueDeltaAxis b.perZ b.Lz
        (((pos i).z - b.oz) - ((pos j).z - b.oz)))]
  have habsy : |trueDeltaAxis b.perY b.Ly
      (((pos i).y - b.oy) - ((pos j).y - b.oy))| < c := by
    apply abs_lt_of_sq_lt _ hc.le
    nlinarith [sq_nonneg (trueDeltaAxis b.perX b.Lx
        (((pos i).x - b.ox) - ((pos j).x - b.ox))),
      sq_nonneg (trueDeltaAxis b.perZ b.Lz
        (((pos i).z - b.oz) - ((pos j).z - b.oz)))]
  have habsz : |trueDeltaAxis b.perZ b.Lz
      (((pos i).z - b.oz) - ((pos j).z - b.oz))| < c := by
    apply abs_lt_of_sq_lt _ hc.le
    nlinarith [sq_nonneg (trueDeltaAxis b.perX b.Lx
        (((pos i).x - b.ox) - ((pos j).x - b.ox))),
      sq_nonneg (trueDeltaAxis b.perY b.Ly
        (((pos i).y - b.oy) - ((pos j).y - b.oy)))]
  -- per-axis stencil data
  obtain ⟨dxx, hdxx3, hdxxval, hdxxeq⟩ := axis_stencil b.perX b.Lx c hLx hc
    ((pos i).x - b.ox) ((pos j).x - b.ox) (by linarith) (by linarith)
    (by linarith) (by linarith) habsx
  obtain ⟨dxy, hdxy3, hdxyval, hdxyeq⟩ := axis_stencil b.perY b.Ly c hLy hc
    ((pos i).y - b.oy) ((pos j).y - b.oy) (by linarith) (by linarith)
    (by linarith) (by linarith) habsy
  obtain ⟨dxz, hdxz3, hdxzval, hdxzeq⟩ := axis_stencil b.perZ b.Lz c hLz hc
    ((pos i).z - b.oz) ((pos j).z - b.oz) (by linarith) (by linarith)
    (by linarith) (by linarith) habsz
  -- linearised cell indices of i and j
  have hlin_i : atomCellLinear (gridOf b c) (pos i) =
      cellLinear (gridOf b c)
        (cellCoord (numCellsAxis b.Lx c) (cellSizeAxis b.Lx c) ((pos i).x - b.ox))
        (cellCoord (numCellsAxis b.Ly c) (cellSizeAxis b.Ly c) ((pos i).y - b.oy))
        (cellCoord (numCellsAxis b.Lz c) (cellSizeAxis b.Lz c) ((pos i).z - b.oz)) := by
    unfold atomCellLinear atomCellCoords
    simp only
    rw [show (gridOf b c).box = b from rfl,
      wrapCoord_eq_self b.Lx ((pos i).x - b.ox) hLx (by linarith) (by linarith),
      wrapCoord_eq_self b.Ly ((pos i).y - b.oy) hLy (by linarith) (by linarith),
      wrapCoord_eq_self b.Lz ((pos i).z - b.oz) hLz (by linarith) (by linarith)]
    rfl
  have hlin_j : atomCellLinear (gridOf b c) (pos j) =
      cellLinear (gridOf b c)
        (cellCoord (numCellsAxis b.Lx c) (cellSizeAxis b.Lx c) ((pos j).x - b.ox))
        (cellCoord (numCellsAxis b.Ly c) (cellSizeAxis b.Ly c) ((pos j).y - b.oy))
        (cellCoord (numCellsAxis b.Lz c) (cellSizeAxis b.Lz c) ((pos j).z - b.oz)) := by
    unfold atomCellLinear atomCellCoords
    simp only
    rw [show (gridOf b c).box = b from rfl,
      wrapCoord_eq_self b.Lx ((pos j).x - b.ox) hLx (by linarith) (by linarith),
      wrapCoord_eq_self b.Ly ((pos j).y - b.oy) hLy (by linarith) (by linarith),
      wrapCoord_eq_self b.Lz ((pos j).z - b.oz) hLz (by linarith) (by linarith)]
    rfl
  have hdec := cellLinear_decompose (gridOf b c)
    (cellCoord (numCellsAxis b.Lx c) (cellSizeAxis b.Lx c) ((pos i).x - b.ox))
    (cellCoord (numCellsAxis b.Ly c) (cellSizeAxis b.Ly c) ((pos i).y - b.oy))
    (cellCoord (numCellsAxis b.Lz c) (cellSizeAxis b.Lz c) ((pos i).z - b.oz))
    (cellCoord_lt _ (numCellsAxis_pos b.Lx c) _ _)
    (cellCoord_lt _ (numCellsAxis_pos b.Ly c) _ _)
    (cellCoord_lt _ (numCellsAxis_pos b.Lz c) _ _)
  rw [neighRow_eq_take, List.take_of_length_le hrow]
  unfold neighCandidates
  simp only
  rw [hlin_i, hdec.1, hdec.2.1, hdec.2.2]
  apply List.mem_filter.mpr
  constructor
  · -- j is stored in a visited stencil cell
    apply List.mem_bind.mpr
    refine ⟨cellLinear (gridOf b c)
      (cellCoord (numCellsAxis b.Lx c) (cellSizeAxis b.Lx c) ((pos j).x - b.ox))
      (cellCoord (numCellsAxis b.Ly c) (cellSizeAxis b.Ly c) ((pos j).y - b.oy))
      (cellCoord (numCellsAxis b.Lz c) (cellSizeAxis b.Lz c) ((pos j).z - b.oz)),
      ?_, ?_⟩
    · unfold stencilCells
      apply List.mem_filterMap.mpr
      refine ⟨(dxx, dxy, dxz), mem_stencilOffsets _ _ _ hdxx3 hdxy3 hdxz3, ?_⟩
      have hvalid : isCellValid (gridOf b c)
          ((cellCoord (numCellsAxis b.Lx c) (cellSizeAxis b.Lx c)
            ((pos i).x - b.ox) : ℤ) + dxx)
          ((cellCoord (numCellsAxis b.Ly c) (cellSizeAxis b.Ly c)
            ((pos i).y - b.oy) : ℤ) + dxy)
          ((cellCoord (numCellsAxis b.Lz c) (cellSizeAxis b.Lz c)
            ((pos i).z - b.oz) : ℤ) + dxz) = true := by
        unfold isCellValid
        rw [show (gridOf b c).box = b from rfl,
          show (gridOf b c).Mx = numCellsAxis b.Lx c from rfl,
          show (gridOf b c).My = numCellsAxis b.Ly c from rfl,
          show (gridOf b c).Mz = numCellsAxis b.Lz c from rfl]
        rw [if_neg, if_neg, if_neg]
        · rintro ⟨hpf, hrange⟩
          obtain ⟨hlow, hhigh⟩ := hdxzval hpf
          omega
        · rintro ⟨hpf, hrange⟩
          obtain ⟨hlow, hhigh⟩ := hdxyval hpf
          omega
        · rintro ⟨hpf, hrange⟩
          obtain ⟨hlow, hhigh⟩ := hdxxval hpf
          omega
      simp only
      rw [if_pos hvalid]
      congr 1
      unfold cellIndexWrap
      simp only
      rw [show (gridOf b c).box = b from rfl,
        show (gridOf b c).Mx = numCellsAxis b.Lx c from rfl,
        show (gridOf b c).My = numCellsAxis b.Ly c from rfl,
        show (gridOf b c).Mz = numCellsAxis b.Lz c from rfl]
      rw [show (if b.perX = true then
            ((cellCoord (numCellsAxis b.Lx c) (cellSizeAxis b.Lx c)
              ((pos i).x - b.ox) : ℤ) + dxx + (numCellsAxis b.Lx c : ℤ)) %
              (numCellsAxis b.Lx c : ℤ)
          else (cellCoord (numCellsAxis b.Lx c) (cellSizeAxis b.Lx c)
            ((pos i).x - b.ox) : ℤ) + dxx).toNat =
          cellCoord (numCellsAxis b.Lx c) (cellSizeAxis b.Lx c)
            ((pos j).x - b.ox) from hdxxeq,
        show (if b.perY = true then
            ((cellCoord (numCellsAxis b.Ly c) (cellSizeAxis b.Ly c)
              ((pos i).y - b.oy) : ℤ) + dxy + (numCellsAxis b.Ly c : ℤ)) %
              (numCellsAxis b.Ly c : ℤ)
          else (cellCoord (numCellsAxis b.Ly c) (cellSizeAxis b.Ly c)
            ((pos i).y - b.oy) : ℤ) + dxy).toNat =
          cellCoord (numCellsAxis b.Ly c) (cellSizeAxis b.Ly c)
            ((pos j).y - b.oy) from hdxyeq,
        show (if b.perZ = true then
            ((cellCoord (numCellsAxis b.Lz c) (cellSizeAxis b.Lz c)
              ((pos i).z - b.oz) : ℤ) + dxz + (numCellsAxis b.Lz c : ℤ)) %
              (numCellsAxis b.Lz c : ℤ)
          else (cellCoord (numCellsAxis b.Lz c) (cellSizeAxis b.Lz c)
            ((pos i).z - b.oz) : ℤ) + dxz).toNat =
          cellCoord (numCellsAxis b.Lz c) (cellSizeAxis b.Lz c)
            ((pos j).z - b.oz) from hdxzeq]
      rfl
    · -- j is in the stored list of its own cell
      rw [(binAtoms_spec (gridOf b c) pos cap N _).2,
        List.take_of_length_le (hcells _)]
      unfold cellMembers
      apply List.mem_filter.mpr
      refine ⟨List.mem_range.mpr hj, ?_⟩
      simp only [decide_eq_true_eq]
      exact hlin_j
  · -- the pair test passes
    simp only [decide_eq_true_eq]
    refine ⟨hji, ?_⟩
    show neighTestSq b pos i j < c * c
    rw [neighTestSq_eq_sepSq b hLx hLy hLz pos i j
      ⟨hix0, hix1, hiy0, hiy1, hiz0, hiz1⟩ ⟨hjx0, hjx1, hjy0, hjy1, hjz0, hjz1⟩]
    calc minImageSepSq b (pos i) (pos j) < c ^ 2 := hsep
      _ = c * c := by ring

theorem trueDeltaAxis_neg_sq (per : Bool) (L d : ℚ) (hL : 0 < L) :
    trueDeltaAxis per L (-d) ^ 2 = trueDeltaAxis per L d ^ 2 := by
  unfold trueDeltaAxis
  by_cases hper : per = true
  · rw [if_pos hper, if_pos hper]
    have key : minImageQ L (-d) ^ 2 = (-minImageQ L d) ^ 2 := by
      apply sq_eq_of_congr_of_abs_le hL (minImageQ_mem L (-d) hL)
        (by rw [abs_neg]; exact minImageQ_mem L d hL)
      obtain ⟨k1, hk1⟩ := minImageQ_congr L (-d)
      obtain ⟨k2, hk2⟩ := minImageQ_congr L d
      exact ⟨k1 + k2, by rw [hk1, hk2]; push_cast; ring⟩
    rw [key]
    ring
  · rw [if_neg hper, if_neg hper]
    ring

theorem minImageSepSq_symm (b : Box) (hLx : 0 < b.Lx) (hLy : 0 < b.Ly)
    (hLz : 0 < b.Lz) (p q : Vec3) :
    minImageSepSq b q p = minImageSepSq b p q := by
  unfold minImageSepSq
  rw [show q.x - p.x = -(p.x - q.x) from by ring,
    show q.y - p.y = -(p.y - q.y) from by ring,
    show q.z - p.z = -(p.z - q.z) from by ring,
    trueDeltaAxis_neg_sq _ _ _ hLx, trueDeltaAxis_neg_sq _ _ _ hLy,
    trueDeltaAxis_neg_sq _ _ _ hLz]

theorem cellMembers_length_le (g : Grid) (pos : ℕ → Vec3) (N c : ℕ) :
    (cellMembers g pos N c).length ≤ N := by
  unfold cellMembers
  calc ((List.range N).filter _).length ≤ (List.range N).length :=
        List.length_filter_le _ _
    _ = N := List.length_range N

/-- Generic capacity bound on the candidate count: at most 27 stencil
cells, each storing at most `min cap N` atoms. -/
theorem uncappedNeighborCount_le (b : Box) (cutoff skin : ℚ)
    (pos : ℕ → Vec3) (N cap i : ℕ) :
    uncappedNeighborCount b cutoff skin pos N cap i ≤ 27 * min cap N := by
  unfold uncappedNeighborCount neighCandidates
  apply le_trans (List.length_filter_le _ _)
  rw [List.length_bind]
  have key : ∀ L : List ℕ, L.length ≤ 27 →
      (L.map (List.length ∘
        (binAtoms (gridOf b (cutoff + skin)) pos N cap).stored)).sum ≤
        27 * min cap N := by
    intro L hL
    have h1 : ∀ x ∈ L.map (List.length ∘
        (binAtoms (gridOf b (cutoff + skin)) pos N cap).stored), x ≤ min cap N := by
      intro x hx
      obtain ⟨a, _, rfl⟩ := List.mem_map.mp hx
      simp only [Function.comp]
      rw [(binAtoms_spec (gridOf b (cutoff + skin)) pos cap N a).2,
        List.length_take]
      have hmem := cellMembers_length_le (gridOf b (cutoff + skin)) pos N a
      omega
    calc (L.map (List.length ∘
          (binAtoms (gridOf b (cutoff + skin)) pos N cap).stored)).sum
        ≤ (L.map (List.length ∘
          (binAtoms (gridOf b (cutoff + skin)) pos N cap).stored)).length *
            min cap N := by
          have := List.sum_le_card_nsmul _ (min cap N) h1
          simpa [smul_eq_mul] using this
      _ ≤ 27 * min cap N := by
          apply Nat.mul_le_mul_right
          rw [List.length_map]
          exact hL
  apply key
  apply le_trans (List.length_filterMap_le _ _)
  rfl

/-- C1: neighbor-list completeness.  For every pair of distinct particles
`i ≠ j` inside the (positive) box whose true minimum-image separation is
strictly below the effective cutoff `cutoff + skin`, provided no per-cell
capacity overflow occurs during the build and neither particle's candidate
row overflows `maxNeighbors`, `j` appears in `i`'s freshly built neighbor
row and `i` in `j`'s (full, symmetric list). -/
theorem C1_neighbor_list_completeness (b : Box) (hLx : 0 < b.Lx)
    (hLy : 0 < b.Ly) (hLz : 0 < b.Lz) (cutoff skin : ℚ)
    (hc : 0 < cutoff + skin) (pos : ℕ → Vec3) (N cap maxN i j : ℕ)
    (hi : i < N) (hj : j < N) (hij : i ≠ j)
    (hibox : inBox b (pos i)) (hjbox : inBox b (pos j))
    (hsep : minImageSepSq b (pos i) (pos j) < (cutoff + skin) ^ 2)
    (hcells : ∀ cIdx,
      (cellMembers (gridOf b (cutoff + skin)) pos N cIdx).length ≤ cap)
    (hrowi : uncappedNeighborCount b cutoff skin pos N cap i ≤ maxN)
    (hrowj : uncappedNeighborCount b cutoff skin pos N cap j ≤ maxN) :
    j ∈ neighborListRows b cutoff skin pos N cap maxN i ∧
      i ∈ neighborListRows b cutoff skin pos N cap maxN j := by
  constructor
  · exact neighRow_mem_core b hLx hLy hLz (cutoff + skin) hc pos N cap maxN
      i j hj (Ne.symm hij) hibox hjbox hsep hcells hrowi
  · apply neighRow_mem_core b hLx hLy hLz (cutoff + skin) hc pos N cap maxN
      j i hi hij hjbox hibox _ hcells hrowj
    rw [minImageSepSq_symm b hLx hLy hLz]
    exact hsep

/-- Concrete periodic box for the completeness witness. -/
def c1Box : Box := ⟨0, 0, 0, 2, 2, 2, true, true, true⟩

/-- Concrete two-particle configuration for the completeness witness. -/
def c1Pos : ℕ → Vec3 := fun n => if n = 0 then ⟨0, 0, 0⟩ else ⟨1, 0, 0⟩

/-- Witness for `C1_neighbor_list_completeness`: two particles at distance 1
in a fully periodic 2×2×2 box, effective cutoff `27/10 + 3/10 = 3`. -/
theorem C1_neighbor_list_completeness_witness :
    ((0 : ℚ) < c1Box.Lx ∧ (0 : ℚ) < c1Box.Ly ∧ (0 : ℚ) < c1Box.Lz ∧
      (0 : ℚ) < 27/10 + 3/10 ∧ (0 < 2 ∧ 1 < 2 ∧ (0 : ℕ) ≠ 1) ∧
      inBox c1Box (c1Pos 0) ∧ inBox c1Box (c1Pos 1) ∧
      minImageSepSq c1Box (c1Pos 0) (c1Pos 1) < (27/10 + 3/10) ^ 2 ∧
      (∀ cIdx, (cellMembers (gridOf c1Box (27/10 + 3/10)) c1Pos 2 cIdx).length ≤ 2) ∧
      uncappedNeighborCount c1Box (27/10) (3/10) c1Pos 2 2 0 ≤ 54 ∧
      uncappedNeighborCount c1Box (27/10) (3/10) c1Pos 2 2 1 ≤ 54) ∧
    (1 ∈ neighborListRows c1Box (27/10) (3/10) c1Pos 2 2 54 0 ∧
      0 ∈ neighborListRows c1Box (27/10) (3/10) c1Pos 2 2 54 1) := by
  have hLx : (0 : ℚ) < c1Box.Lx := by norm_num [c1Box]
  have hLy : (0 : ℚ) < c1Box.Ly := by norm_num [c1Box]
  have hLz : (0 : ℚ) < c1Box.Lz := by norm_num [c1Box]
  have hc : (0 : ℚ) < 27/10 + 3/10 := by norm_num
  have h0 : inBox c1Box (c1Pos 0) := by norm_num [inBox, c1Box, c1Pos]
  have h1 : inBox c1Box (c1Pos 1) := by norm_num [inBox, c1Box, c1Pos]
  have hsep : minImageSepSq c1Box (c1Pos 0) (c1Pos 1) < (27/10 + 3/10) ^ 2 := by
    norm_num [minImageSepSq, trueDeltaAxis, minImageQ, c1Box, c1Pos, round_eq]
  have hcells : ∀ cIdx,
      (cellMembers (gridOf c1Box (27/10 + 3/10)) c1Pos 2 cIdx).length ≤ 2 :=
    fun cIdx => cellMembers_length_le _ _ _ _
  have hrow0 : uncappedNeighborCount c1Box (27/10) (3/10) c1Pos 2 2 0 ≤ 54 :=
    le_trans (uncappedNeighborCount_le _ _ _ _ _ _ _) (by norm_num)
  have hrow1 : uncappedNeighborCount c1Box (27/10) (3/10) c1Pos 2 2 1 ≤ 54 :=
    le_trans (uncappedNeighborCount_le _ _ _ _ _ _ _) (by norm_num)
  refine ⟨⟨hLx, hLy, hLz, hc, ⟨by norm_num, by norm_num, by norm_num⟩,
    h0, h1, hsep, hcells, hrow0, hrow1⟩, ?_⟩
  exact C1_neighbor_list_completeness c1Box hLx hLy hLz (27/10) (3/10) hc
    c1Pos 2 2 54 0 1 (by norm_num) (by norm_num) (by norm_num) h0 h1 hsep
    hcells hrow0 hrow1

/-! ## Displacement tracking and the rebuild criterion -/

/-- WGSL `u32(x)` conversion from `f32`: truncation toward zero, saturating
into `[0, 2^32 - 1]` (negative inputs clamp to `0`, which `Int.toNat` of
the floor matches for the non-negative squared displacements). -/
def wgslU32 (q : ℚ) : ℕ := min (Int.toNat ⌊q⌋) (2 ^ 32 - 1)

/-- The squared minimum-image displacement of one atom from its last-rebuild
snapshot (`integrateInitial`, `src/unnamed/part_009` lines 142-151;
`minimumImageDisplacement` there is the same single-wrap code as
`minimumImage`). -/
def dispSqOf (b : Box) (p last : Vec3) : ℚ :=
  let d := minimumImage b (p.x - last.x) (p.y - last.y) (p.z - last.z)
  d.x * d.x + d.y * d.y + d.z * d.z

/-- The scaled contribution `u32(dispSq * 1000000.0)` one atom writes with
`atomicMax` (`part_009` lines 152-157). -/
def scaledDispSq (q : ℚ) : ℕ := wgslU32 (q * 1000000)

/-- The accumulator after `integrateInitial` ran over all atoms, starting
from the zero written by `resetMaxDisplacement` (`part_001` lines 405-408);
the atomic max-reduction is modelled in atom order (max is order
independent). -/
def maxDispScaled (b : Box) (pos last : ℕ → Vec3) (N : ℕ) : ℕ :=
  (List.range N).foldl
    (fun acc a => Nat.max acc (scaledDispSq (dispSqOf b (pos a) (last a)))) 0

/-- `VelocityVerlet.getMaxDisplacementSq` (`part_001` lines 414-436): read
the accumulator back and unscale by `1000000`. -/
def getMaxDisplacementSq (b : Box) (pos last : ℕ → Vec3) (N : ℕ) : ℚ :=
  (maxDispScaled b pos last N : ℚ) / 1000000

/-- `VelocityVerlet.needsNeighborRebuild` (`part_001` lines 446-454):
`2 * Math.sqrt(maxDispSq) > skin`. -/
def needsNeighborRebuild (b : Box) (pos last : ℕ → Vec3) (N : ℕ)
    (skin : ℚ) : Prop :=
  2 * Real.sqrt (getMaxDisplacementSq b pos last N) > (skin : ℝ)

theorem foldl_max_le (f : ℕ → ℕ) :
    ∀ (l : List ℕ) (init : ℕ),
      init ≤ l.foldl (fun acc a => Nat.max acc (f a)) init ∧
      ∀ x ∈ l, f x ≤ l.foldl (fun acc a => Nat.max acc (f a)) init := by
  intro l
  induction l with
  | nil => intro init; exact ⟨le_refl _, fun x hx => absurd hx (List.not_mem_nil x)⟩
  | cons a t ih =>
    intro init
    rw [List.foldl_cons]
    obtain ⟨ih1, ih2⟩ := ih (Nat.max init (f a))
    refine ⟨le_trans (Nat.le_max_left _ _) ih1, fun x hx => ?_⟩
    rcases List.mem_cons.mp hx with rfl | hx'
    · exact le_trans (Nat.le_max_right _ _) ih1
    · exact ih2 x hx'

theorem foldl_max_attained (f : ℕ → ℕ) :
    ∀ (l : List ℕ) (init : ℕ),
      l.foldl (fun acc a => Nat.max acc (f a)) init = init ∨
      ∃ x ∈ l, l.foldl (fun acc a => Nat.max acc (f a)) init = f x := by
  intro l
  induction l with
  | nil => intro init; exact Or.inl rfl
  | cons a t ih =>
    intro init
    rw [List.foldl_cons]
    rcases ih (Nat.max init (f a)) with h | ⟨x, hx, hfx⟩
    · rcases Nat.le_total init (f a) with hle | hle
      · exact Or.inr ⟨a, List.mem_cons_self _ _, by rw [h]; exact Nat.max_eq_right hle⟩
      · exact Or.inl (by rw [h]; exact Nat.max_eq_left hle)
    · exact Or.inr ⟨x, List.mem_cons_of_mem _ hx, hfx⟩

/-- C6: the rebuild criterion.  `needsNeighborRebuild(skin)` holds iff
`2·sqrt(maxDisplacementSq) > skin`, equivalently (for `skin ≥ 0`)
`skin² < 4·maxDisplacementSq`, where `maxDisplacementSq` is the `u32`-scaled
atomic integer max of `u32(dispSq·10⁶)` over the per-particle squared
minimum-image displacements, divided by `10⁶` on read-back: the accumulator
dominates every particle's scaled contribution and is attained by one of
them (or is the reset value `0`). -/
theorem C6_rebuild_criterion (b : Box) (pos last : ℕ → Vec3) (N : ℕ)
    (skin : ℚ) (hskin : 0 ≤ skin) :
    (needsNeighborRebuild b pos last N skin ↔
      skin ^ 2 < 4 * getMaxDisplacementSq b pos last N) ∧
    (∀ a < N, scaledDispSq (dispSqOf b (pos a) (last a)) ≤
      maxDispScaled b pos last N) ∧
    (maxDispScaled b pos last N = 0 ∨
      ∃ a < N, maxDispScaled b pos last N =
        scaledDispSq (dispSqOf b (pos a) (last a))) := by
  refine ⟨?_, ?_, ?_⟩
  · unfold needsNeighborRebuild
    have hmq : (0 : ℚ) ≤ getMaxDisplacementSq b pos last N := by
      unfold getMaxDisplacementSq
      positivity
    have hm : (0 : ℝ) ≤ (getMaxDisplacementSq b pos last N : ℝ) := by
      exact_mod_cast hmq
    have h4 : Real.sqrt (4 * (getMaxDisplacementSq b pos last N : ℝ)) =
        2 * Real.sqrt (getMaxDisplacementSq b pos last N : ℝ) := by
      rw [show (4 : ℝ) * (getMaxDisplacementSq b pos last N : ℝ) =
        2 ^ 2 * (getMaxDisplacementSq b pos last N : ℝ) from by ring,
        Real.sqrt_mul (by norm_num), Real.sqrt_sq (by norm_num)]
    constructor
    · intro h
      have hlt : (skin : ℝ) <
          Real.sqrt (4 * (getMaxDisplacementSq b pos last N : ℝ)) := by
        rw [h4]
        exact h
      have h2 : (skin : ℝ) ^ 2 <
          4 * (getMaxDisplacementSq b pos last N : ℝ) :=
        (Real.lt_sqrt (by positivity)).mp hlt
      exact_mod_cast h2
    · intro h
      have h2 : (skin : ℝ) ^ 2 <
          4 * (getMaxDisplacementSq b pos last N : ℝ) := by
        exact_mod_cast h
      have hlt : (skin : ℝ) <
          Real.sqrt (4 * (getMaxDisplacementSq b pos last N : ℝ)) :=
        (Real.lt_sqrt (by positivity)).mpr h2
      rw [h4] at hlt
      exact hlt
  · intro a ha
    unfold maxDispScaled
    exact (foldl_max_le (fun a => scaledDispSq (dispSqOf b (pos a) (last a)))
      (List.range N) 0).2 a (List.mem_range.mpr ha)
  · unfold maxDispScaled
    rcases foldl_max_attained
      (fun a => scaledDispSq (dispSqOf b (pos a) (last a))) (List.range N) 0 with
      h | ⟨x, hx, hfx⟩
    · exact Or.inl h
    · exact Or.inr ⟨x, List.mem_range.mp hx, hfx⟩

/-- Witness for `C6_rebuild_criterion` on a one-atom system. -/
theorem C6_rebuild_criterion_witness :
    (0 : ℚ) ≤ 1 ∧
      ((needsNeighborRebuild ⟨0, 0, 0, 10, 10, 10, true, true, true⟩
          (fun _ => ⟨1, 0, 0⟩) (fun _ => ⟨0, 0, 0⟩) 1 1 ↔
        (1 : ℚ) ^ 2 < 4 * getMaxDisplacementSq
          ⟨0, 0, 0, 10, 10, 10, true, true, true⟩
          (fun _ => ⟨1, 0, 0⟩) (fun _ => ⟨0, 0, 0⟩) 1) ∧
      (∀ a < 1, scaledDispSq (dispSqOf ⟨0, 0, 0, 10, 10, 10, true, true, true⟩
          ((fun _ : ℕ => (⟨1, 0, 0⟩ : Vec3)) a) ((fun _ : ℕ => (⟨0, 0, 0⟩ : Vec3)) a)) ≤
        maxDispScaled ⟨0, 0, 0, 10, 10, 10, true, true, true⟩
          (fun _ => ⟨1, 0, 0⟩) (fun _ => ⟨0, 0, 0⟩) 1) ∧
      (maxDispScaled ⟨0, 0, 0, 10, 10, 10, true, true, true⟩
          (fun _ => ⟨1, 0, 0⟩) (fun _ => ⟨0, 0, 0⟩) 1 = 0 ∨
        ∃ a < 1, maxDispScaled ⟨0, 0, 0, 10, 10, 10, true, true, true⟩
            (fun _ => ⟨1, 0, 0⟩) (fun _ => ⟨0, 0, 0⟩) 1 =
          scaledDispSq (dispSqOf ⟨0, 0, 0, 10, 10, 10, true, true, true⟩
            ((fun _ : ℕ => (⟨1, 0, 0⟩ : Vec3)) a)
            ((fun _ : ℕ => (⟨0, 0, 0⟩ : Vec3)) a)))) :=
  ⟨by norm_num,
    C6_rebuild_criterion ⟨0, 0, 0, 10, 10, 10, true, true, true⟩
      (fun _ => ⟨1, 0, 0⟩) (fun _ => ⟨0, 0, 0⟩) 1 1 (by norm_num)⟩

/-! ## Simulation step protocol: rebuild decisions -/

/-- The fixed-interval rebuild test of `Simulation.step`
(`src/src/core/Simulation.ts` line 333): rebuild when
`currentStep - lastNeighRebuild >= neighRebuildEvery`. -/
def stepRebuilds (currentStep lastNeighRebuild neighRebuildEvery : ℤ) : Bool :=
  decide (neighRebuildEvery ≤ currentStep - lastNeighRebuild)

/-- The rebuild decision of `Simulation.stepAsync`
(`src/src/core/Simulation.ts` lines 356-374), given the value the
displacement criterion would return: with the displacement policy, the
criterion is consulted only when `(currentStep - lastNeighRebuild) %
displacementCheckEvery == 0`, otherwise the `5 × neighRebuildEvery`
fallback applies; without it, the fixed interval is used.  (All quantities
are non-negative in the modelled scenarios, where JavaScript `%` agrees
with `Int.emod`.) -/
def stepAsyncRebuilds (currentStep lastNeighRebuild neighRebuildEvery
    displacementCheckEvery : ℤ) (useDisplacementRebuild needsRebuild : Bool) :
    Bool :=
  if useDisplacementRebuild then
    if (currentStep - lastNeighRebuild) % displacementCheckEvery = 0 then
      needsRebuild
    else if neighRebuildEvery * 5 ≤ currentStep - lastNeighRebuild then true
    else false
  else decide (neighRebuildEvery ≤ currentStep - lastNeighRebuild)

/-- `Simulation.forceNeighborRebuild` (`src/src/core/Simulation.ts` lines
522-524): the only bookkeeping it sets is
`lastNeighRebuild = -neighRebuildEvery`. -/
def forceNeighborRebuild (neighRebuildEvery : ℤ) : ℤ := -neighRebuildEvery

/-- C7 fails on the code: after `forceNeighborRebuild()` with the default
parameters (`neighRebuildEvery = 10`, `displacementCheckEvery = 10`,
displacement policy active), a synchronous `step()` at `currentStep = 1`
does rebuild, but `stepAsync()` does not when the displacement criterion
returns false: `(1 - (-10)) % 10 = 1 ≠ 0` skips the displacement check and
`11 < 50` skips the fallback, so no rebuild happens even though the claim
(and the method's own doc comment) promise an unconditional rebuild on the
next step regardless of policy. -/
theorem C7_force_rebuild_async_gap :
    stepRebuilds 1 (forceNeighborRebuild 10) 10 = true ∧
      stepAsyncRebuilds 1 (forceNeighborRebuild 10) 10 10 true false = false := by
  constructor
  · decide
  · decide

/-! ## SimulationState: bulk setters, lattice initializers, build guard -/

/-- The CPU-side state of `SimulationState` (`src/unnamed/part_005`):
per-particle arrays (positions/velocities of length `3N`, types/masses of
length `N`) plus the owned box.  Mutation happens only through the returned
state; an error return leaves every array and buffer untouched, matching
the source where the length check precedes every write. -/
structure SimState where
  numAtoms : ℕ
  positions : List ℚ
  velocities : List ℚ
  types : List ℕ
  masses : List ℚ
  box : Box

/-- `SimulationState.setPositions` (`part_005` lines 129-135). -/
def setPositions (st : SimState) (ps : List ℚ) : Except String SimState :=
  if ps.length ≠ st.positions.length then
    Except.error "Position array length mismatch"
  else Except.ok { st with positions := ps }

/-- `SimulationState.setVelocities` (`part_005` lines 138-144). -/
def setVelocities (st : SimState) (vs : List ℚ) : Except String SimState :=
  if vs.length ≠ st.velocities.length then
    Except.error "Velocity array length mismatch"
  else Except.ok { st with velocities := vs }

/-- `SimulationState.setTypes` (`part_005` lines 147-153). -/
def setTypes (st : SimState) (ts : List ℕ) : Except String SimState :=
  if ts.length ≠ st.types.length then
    Except.error "Types array length mismatch"
  else Except.ok { st with types := ts }

/-- `SimulationState.setMasses` (`part_005` lines 156-162). -/
def setMasses (st : SimState) (ms : List ℚ) : Except String SimState :=
  if ms.length ≠ st.masses.length then
    Except.error "Masses array length mismatch"
  else Except.ok { st with masses := ms }

/-- The flat position list the simple-cubic loop writes
(`initializeLattice`, `part_005` lines 253-268): atom `(ix, iy, iz)` in
`iz`-outer order at `((i + 0.5) * spacing)` per axis. -/
def latticePositions (nx ny nz : ℕ) (spacing : ℚ) : List ℚ :=
  (List.range nz).bind fun iz =>
    (List.range ny).bind fun iy =>
      (List.range nx).bind fun ix =>
        [((ix : ℚ) + 1/2) * spacing, ((iy : ℚ) + 1/2) * spacing,
          ((iz : ℚ) + 1/2) * spacing]

/-- `SimulationState.initializeLattice` (`part_005` lines 241-280): the
atom-count check comes before any position is written; afterwards the box
is replaced by `SimulationBox.fromDimensions` (origin 0, fully periodic,
`part_002` lines 34-49). -/
def initializeLattice (st : SimState) (nx ny nz : ℕ) (spacing : ℚ)
    (ty : ℕ) : Except String SimState :=
  if nx * ny * nz ≠ st.numAtoms then
    Except.error "Lattice size mismatch"
  else
    Except.ok { st with
      positions := latticePositions nx ny nz spacing
      types := List.replicate st.numAtoms ty
      box := ⟨0, 0, 0, (nx : ℚ) * spacing, (ny : ℚ) * spacing,
        (nz : ℚ) * spacing, true, true, true⟩ }

/-- The flat position list of the FCC loop (`initializeFCC`, `part_005`
lines 305-330): the 4-point basis per unit cell. -/
def fccPositions (nx ny nz : ℕ) (a : ℚ) : List ℚ :=
  (List.range nz).bind fun iz =>
    (List.range ny).bind fun iy =>
      (List.range nx).bind fun ix =>
        ([(0, 0, 0), (1/2, 1/2, 0), (1/2, 0, 1/2), (0, 1/2, 1/2)] :
            List (ℚ × ℚ × ℚ)).bind fun bb =>
          [((ix : ℚ) + bb.1) * a, ((iy : ℚ) + bb.2.1) * a,
            ((iz : ℚ) + bb.2.2) * a]

/-- `SimulationState.initializeFCC` (`part_005` lines 293-342). -/
def initializeFCC (st : SimState) (nx ny nz : ℕ) (a : ℚ) (ty : ℕ) :
    Except String SimState :=
  if 4 * nx * ny * nz ≠ st.numAtoms then
    Except.error "FCC lattice size mismatch"
  else
    Except.ok { st with
      positions := fccPositions nx ny nz a
      types := List.replicate st.numAtoms ty
      box := ⟨0, 0, 0, (nx : ℚ) * a, (ny : ℚ) * a, (nz : ℚ) * a,
        true, true, true⟩ }

/-- `NeighborList.build` with its `currentBox` guard
(`src/src/compute/gpu.integration.test.ts` lines 595-598): `updateBox` must
have run at least once. -/
def nlBuild (currentBox : Option Box) (cutoff skin : ℚ) (pos : ℕ → Vec3)
    (N cap maxN : ℕ) : Except String (ℕ → List ℕ) :=
  match currentBox with
  | none => Except.error "Must call updateBox before building neighbor list"
  | some b => Except.ok (neighborListRows b cutoff skin pos N cap maxN)

/-- C9: precondition violations fail fast with a descriptive error and, in
this state-passing model, leave the state untouched (no new state is
produced; the source performs each check before any CPU-array or GPU-buffer
write).  Covers the four bulk setters, both lattice initializers, and the
missing-box guard of `NeighborList.build`. -/
theorem C9_fail_fast (st : SimState) (ps vs ms : List ℚ) (ts : List ℕ)
    (nx ny nz ty : ℕ) (spacing a cutoff skin : ℚ) (pos : ℕ → Vec3)
    (N cap maxN : ℕ) :
    (ps.length ≠ st.positions.length →
      setPositions st ps = Except.error "Position array length mismatch") ∧
    (vs.length ≠ st.velocities.length →
      setVelocities st vs = Except.error "Velocity array length mismatch") ∧
    (ts.length ≠ st.types.length →
      setTypes st ts = Except.error "Types array length mismatch") ∧
    (ms.length ≠ st.masses.length →
      setMasses st ms = Except.error "Masses array length mismatch") ∧
    (nx * ny * nz ≠ st.numAtoms →
      initializeLattice st nx ny nz spacing ty =
        Except.error "Lattice size mismatch") ∧
    (4 * nx * ny * nz ≠ st.numAtoms →
      initializeFCC st nx ny nz a ty =
        Except.error "FCC lattice size mismatch") ∧
    nlBuild none cutoff skin pos N cap maxN =
      Except.error "Must call updateBox before building neighbor list" := by
  refine ⟨fun h => ?_, fun h => ?_, fun h => ?_, fun h => ?_, fun h => ?_,
    fun h => ?_, rfl⟩
  · unfold setPositions
    rw [if_pos h]
  · unfold setVelocities
    rw [if_pos h]
  · unfold setTypes
    rw [if_pos h]
  · unfold setMasses
    rw [if_pos h]
  · unfold initializeLattice
    rw [if_pos h]
  · unfold initializeFCC
    rw [if_pos h]

/-- Concrete two-atom state for the fail-fast witness. -/
def c9State : SimState :=
  ⟨2, [0, 0, 0, 0, 0, 0], [0, 0, 0, 0, 0, 0], [0, 0], [1, 1],
    ⟨0, 0, 0, 10, 10, 10, true, true, true⟩⟩

/-- Witness for `C9_fail_fast`: wrong-length arrays and wrong lattice
counts against a two-atom state, and a build with no box. -/
theorem C9_fail_fast_witness :
    setPositions c9State [1] = Except.error "Position array length mismatch" ∧
    setVelocities c9State [1] = Except.error "Velocity array length mismatch" ∧
    setTypes c9State [1] = Except.error "Types array length mismatch" ∧
    setMasses c9State [1] = Except.error "Masses array length mismatch" ∧
    initializeLattice c9State 1 1 1 1 0 = Except.error "Lattice size mismatch" ∧
    initializeFCC c9State 1 1 1 1 0 = Except.error "FCC lattice size mismatch" ∧
    nlBuild none 1 1 (fun _ => ⟨0, 0, 0⟩) 2 4 8 =
      Except.error "Must call updateBox before building neighbor list" := by
  obtain ⟨h1, h2, h3, h4, h5, h6, h7⟩ := C9_fail_fast c9State [1] [1] [1] [1]
    1 1 1 0 1 1 1 1 (fun _ => ⟨0, 0, 0⟩) 2 4 8
  exact ⟨h1 (by decide), h2 (by decide), h3 (by decide), h4 (by decide),
    h5 (by decide), h6 (by decide), h7⟩

/-! ## Maxwell-Boltzmann initialization: zero net momentum -/

/-- `SimulationState.initializeVelocities` (`src/unnamed/part_005` lines
344-392), with the Box-Muller Gaussian draws abstracted as the given
per-atom raw samples `raw` (they involve `log`/`cos`/`sin`, and the claim
quantifies over every outcome): the mass-weighted component sums are
accumulated during the sampling loop, the mass-weighted center-of-mass
velocity is computed, and it is subtracted from every particle. -/
def initializeVelocities (masses : List ℚ) (raw : List Vec3) : List Vec3 :=
  let sumVx := ((masses.zip raw).map fun p => p.2.x * p.1).sum
  let sumVy := ((masses.zip raw).map fun p => p.2.y * p.1).sum
  let sumVz := ((masses.zip raw).map fun p => p.2.z * p.1).sum
  let totalMass := masses.sum
  let vcmX := sumVx / totalMass
  let vcmY := sumVy / totalMass
  let vcmZ := sumVz / totalMass
  raw.map fun v => ⟨v.x - vcmX, v.y - vcmY, v.z - vcmZ⟩

/-- Shifting every sampled velocity by constants changes each mass-weighted
component sum by `constant * total mass`. -/
theorem zip_map_shift_sum (cx cy cz : ℚ) :
    ∀ (ms : List ℚ) (vs : List Vec3), ms.length = vs.length →
      (((ms.zip (vs.map fun v => Vec3.mk (v.x - cx) (v.y - cy) (v.z - cz))).map
          fun p => p.2.x * p.1).sum =
        ((ms.zip vs).map fun p => p.2.x * p.1).sum - cx * ms.sum) ∧
      (((ms.zip (vs.map fun v => Vec3.mk (v.x - cx) (v.y - cy) (v.z - cz))).map
          fun p => p.2.y * p.1).sum =
        ((ms.zip vs).map fun p => p.2.y * p.1).sum - cy * ms.sum) ∧
      (((ms.zip (vs.map fun v => Vec3.mk (v.x - cx) (v.y - cy) (v.z - cz))).map
          fun p => p.2.z * p.1).sum =
        ((ms.zip vs).map fun p => p.2.z * p.1).sum - cz * ms.sum) := by
  intro ms
  induction ms with
  | nil =>
    intro vs _
    simp
  | cons m t ih =>
    intro vs hlen
    cases vs with
    | nil => simp at hlen
    | cons v tv =>
      obtain ⟨ih1, ih2, ih3⟩ := ih tv (by simpa using hlen)
      refine ⟨?_, ?_, ?_⟩
      · simp only [List.map_cons, List.zip_cons_cons, List.sum_cons]
        rw [ih1]
        ring
      · simp only [List.map_cons, List.zip_cons_cons, List.sum_cons]
        rw [ih2]
        ring
      · simp only [List.map_cons, List.zip_cons_cons, List.sum_cons]
        rw [ih3]
        ring

/-- C10: after Maxwell-Boltzmann initialization, the mass-weighted sum of
the velocities is exactly zero along every axis (exact arithmetic), for
every particle count `N ≥ 1`, every temperature (the sampled values are
universally quantified) and every assignment of positive masses, because
the mass-weighted center-of-mass velocity is subtracted from every
particle. -/
theorem C10_zero_momentum (masses : List ℚ) (raw : List Vec3)
    (hlen : masses.length = raw.length) (hpos : ∀ m ∈ masses, 0 < m)
    (hne : masses ≠ []) :
    ((masses.zip (initializeVelocities masses raw)).map
      fun p => p.2.x * p.1).sum = 0 ∧
    ((masses.zip (initializeVelocities masses raw)).map
      fun p => p.2.y * p.1).sum = 0 ∧
    ((masses.zip (initializeVelocities masses raw)).map
      fun p => p.2.z * p.1).sum = 0 := by
  have hsum : 0 < masses.sum := List.sum_pos masses hpos hne
  unfold initializeVelocities
  simp only
  obtain ⟨h1, h2, h3⟩ := zip_map_shift_sum
    (((masses.zip raw).map fun p => p.2.x * p.1).sum / masses.sum)
    (((masses.zip raw).map fun p => p.2.y * p.1).sum / masses.sum)
    (((masses.zip raw).map fun p => p.2.z * p.1).sum / masses.sum)
    masses raw hlen
  refine ⟨?_, ?_, ?_⟩
  · rw [h1]
    field_simp
  · rw [h2]
    field_simp
  · rw [h3]
    field_simp

/-- Witness for `C10_zero_momentum` on a concrete two-particle system. -/
theorem C10_zero_momentum_witness :
    (([1, 2] : List ℚ).length = ([⟨1, 0, 0⟩, ⟨3, 1, 5⟩] : List Vec3).length ∧
      (∀ m ∈ ([1, 2] : List ℚ), 0 < m) ∧ ([1, 2] : List ℚ) ≠ []) ∧
    ((([1, 2] : List ℚ).zip
        (initializeVelocities [1, 2] [⟨1, 0, 0⟩, ⟨3, 1, 5⟩])).map
      fun p => p.2.x * p.1).sum = 0 ∧
    ((([1, 2] : List ℚ).zip
        (initializeVelocities [1, 2] [⟨1, 0, 0⟩, ⟨3, 1, 5⟩])).map
      fun p => p.2.y * p.1).sum = 0 ∧
    ((([1, 2] : List ℚ).zip
        (initializeVelocities [1, 2] [⟨1, 0, 0⟩, ⟨3, 1, 5⟩])).map
      fun p => p.2.z * p.1).sum = 0 := by
  have hpos : ∀ m ∈ ([1, 2] : List ℚ), 0 < m := by
    intro m hm
    rcases List.mem_cons.mp hm with rfl | hm'
    · norm_num
    · rcases List.mem_cons.mp hm' with rfl | hm''
      · norm_num
      · exact absurd hm'' (List.not_mem_nil m)
  exact ⟨⟨rfl, hpos, by simp⟩,
    C10_zero_momentum [1, 2] [⟨1, 0, 0⟩, ⟨3, 1, 5⟩] rfl hpos (by simp)⟩

end WebgpuMD
